import Mathlib

/-!
# moon_rs: JSON decoding into Lua values

A shallow embedding of `lua_json_decode.c` (crates/libs/lib-lua-sys/lualib-src):
the overflow-aware decimal parser `l_str2int`, the numeric-key coercion made by
`decode_one` on object keys, and the recursive value decoder itself.

Conventions of the embedding

* a byte buffer `(const char *s, size_t len)` is a `List UInt8`; `len` is the
  length of the list and a pointer `s + i` is the offset `i`;
* `lua_Unsigned` is a `Nat` reduced modulo `2 ^ 64` after every operation,
  `lua_Integer` is an `Int`, and a cast between machine integer types is an
  explicit function (`castInt`, `castInt64`);
* a function that returns a null pointer on failure returns `none`;
* the Lua stack discipline of `decode_one` (push one value per node, then
  `lua_rawset` / `lua_rawseti` into the table below it) is rendered as a
  function from a document node to the value it pushes;
* `decode_one_L` is the same function as it acts on the Lua stack, with the calls
  of `luaL_checkstack`; it pushes the value of `decode_one` whenever those calls
  pass (`decode_one_L_ok`). Allocation failures inside Lua and the size hints of
  `lua_createtable`, which do not change a table, are left out.
-/

namespace MoonJson

/-! ## Machine integers -/

/-- The cast `(int)x` of a `size_t` to a 32-bit `int`: the value is reduced modulo
`2 ^ 32` and read as a signed 32-bit number (the conversion gcc, clang and msvc
implement). It is the identity below `2 ^ 31`. -/
def castInt (n : Nat) : Int :=
  if n % 2 ^ 32 < 2 ^ 31 then ((n % 2 ^ 32 : Nat) : Int)
  else ((n % 2 ^ 32 : Nat) : Int) - 2 ^ 32

/-- The cast `(int64_t)x` of an unsigned 64-bit value: the same bit pattern read as
a signed 64-bit number. -/
def castInt64 (x : Nat) : Int :=
  if x % 2 ^ 64 < 2 ^ 63 then ((x % 2 ^ 64 : Nat) : Int)
  else ((x % 2 ^ 64 : Nat) : Int) - 2 ^ 64

/-- Modelled from the spec: `LUA_MAXINTEGER` (luaconf.h is not part of the sources
at hand) is the largest value of the 64-bit signed `lua_Integer`, `INT64_MAX`. -/
def LUA_MAXINTEGER : Nat := 2 ^ 63 - 1

/-- The constant `MAXBY10`, `(lua_Unsigned)LUA_MAXINTEGER / 10`. -/
def MAXBY10 : Nat := LUA_MAXINTEGER / 10

/-- The constant `MAXLASTD`, `(int)(LUA_MAXINTEGER % 10)`. -/
def MAXLASTD : Nat := LUA_MAXINTEGER % 10

/-- Modelled from the spec: `l_castU2S` (llimits.h is not part of the sources at
hand) converts the unsigned magnitude to the signed result, a direct cast of the
64-bit pattern. -/
def l_castU2S (x : Nat) : Int := castInt64 x

/-- Modelled from the spec: `lisdigit` (lctype.h is not part of the sources at hand)
tests whether a byte is a decimal digit, `'0'` to `'9'`. -/
def lisdigit (c : UInt8) : Bool := decide (48 ≤ c.toNat) && decide (c.toNat ≤ 57)

/-! ## The integer parser -/

/-- The function `isneg`: looks at the byte under the cursor `b` of the buffer `s`,
steps over a `'-'` (returning 1) or a `'+'` (returning 0), and otherwise leaves the
cursor where it is. The result is the flag and the new cursor. -/
def isneg (s : List UInt8) (b : Nat) : Nat × Nat :=
  if s.getD b 0 = 45 then (1, b + 1)
  else if s.getD b 0 = 43 then (0, b + 1)
  else (0, b)

/-- The `for` loop of `l_str2int`. The first argument after `neg` is the number of
iterations left, `(int)len - i`; then come the index `i`, the accumulator `a` and
the flag `empty`. The result is `none` when the loop body returns `nullptr`, and
the state at loop exit otherwise. -/
def l_str2int_loop (s : List UInt8) (neg : Nat) :
    Nat → Nat → Nat → Bool → Option (Nat × Nat × Bool)
  | 0, i, a, empty => some (i, a, empty)
  | k + 1, i, a, _ =>
    if !lisdigit (s.getD i 0) then none
    else
      let d := (s.getD i 0).toNat - 48
      if decide (a ≥ MAXBY10) && (decide (a > MAXBY10) || decide (d > MAXLASTD + neg)) then
        none
      else l_str2int_loop s neg k (i + 1) ((a * 10 + d) % 2 ^ 64) false

/-- The function `l_str2int` on the buffer `s` with `len = s.length`: `none` for the
null pointer, and `some (v, i)` when it stores `v` in `*result` and returns
`s + i`. -/
def l_str2int (s : List UInt8) : Option (Int × Nat) :=
  if s.length = 0 then none
  else
    let nb := isneg s 0
    match l_str2int_loop s nb.1 (castInt s.length - (nb.2 : Int)).toNat nb.2 0 true with
    | none => none
    | some (i, a, empty) =>
      if empty then none
      else some (l_castU2S (if nb.1 ≠ 0 then (2 ^ 64 - a) % 2 ^ 64 else a), i)

/-! ## Documents and Lua values -/

/-- A node of the parsed document (`yyjson_val`): the six kinds that
`yyjson_get_type` tells apart in `decode_one`, a number with its subtype. The
payload of a real number is the bit pattern of its `double`, which the decoder
hands on unchanged. -/
inductive yyjson_val where
  | null
  | bool (b : Bool)
  | uint (u : Nat)
  | sint (i : Int)
  | real (bits : Nat)
  | str (s : List UInt8)
  | arr (vs : List yyjson_val)
  | obj (kvs : List (List UInt8 × yyjson_val))

/-- A key of a Lua table built by the decoder: `lua_pushinteger` or
`lua_pushlstring`. An integer key and a string key are never equal. -/
inductive LuaKey where
  | integer (v : Int)
  | string (s : List UInt8)
  deriving DecidableEq

/-- A Lua value pushed by the decoder. The null node is the light userdata of the
null pointer. A table is the list of its entries in the order of first insertion,
with at most one entry for a key. -/
inductive LuaValue where
  | integer (v : Int)
  | number (bits : Nat)
  | string (s : List UInt8)
  | boolean (b : Bool)
  | lightuserdata (p : Nat)
  | table (t : List (LuaKey × LuaValue))

/-- The assignment `t[k] = v` of `lua_rawset` and `lua_rawseti` with a value that is
not nil: the entry of `k` is replaced when there is one, and added otherwise. -/
def lua_rawset (t : List (LuaKey × LuaValue)) (k : LuaKey) (v : LuaValue) :
    List (LuaKey × LuaValue) :=
  match t with
  | [] => [(k, v)]
  | e :: r => if e.1 = k then (k, v) :: r else e :: lua_rawset r k v

/-- The lookup `t[k]` of `lua_rawget`: `none` stands for nil. -/
def lua_rawget (t : List (LuaKey × LuaValue)) (k : LuaKey) : Option LuaValue :=
  match t with
  | [] => none
  | e :: r => if e.1 = k then some e.2 else lua_rawget r k

/-! ## The value decoder -/

/-- The key pushed by `decode_one` for an object pair with non-empty key text
(lines 79 to 93): the integer `v` when the first byte is `'-'` or a digit and
`l_str2int` returns the end of the key, and the key text otherwise. -/
def decode_one_key (key_str : List UInt8) : LuaKey :=
  let c := key_str.getD 0 0
  if c = 45 || (decide (48 ≤ c.toNat) && decide (c.toNat ≤ 57)) then
    match l_str2int key_str with
    | some (v, i) => if i = key_str.length then LuaKey.integer v else LuaKey.string key_str
    | none => LuaKey.string key_str
  else LuaKey.string key_str

mutual
/-- The function `decode_one`: the Lua value pushed for a document node. -/
def decode_one : yyjson_val → LuaValue
  | .null => .lightuserdata 0
  | .bool b => .boolean b
  | .uint u => .integer (castInt64 u)
  | .sint i => .integer i
  | .real bits => .number bits
  | .str s => .string s
  | .arr vs => .table (decode_arr vs 1 [])
  | .obj kvs => .table (decode_obj kvs [])
/-- The array loop of `decode_one`: the remaining children, the position `pos` and
the table on the stack. -/
def decode_arr : List yyjson_val → Int → List (LuaKey × LuaValue) → List (LuaKey × LuaValue)
  | [], _, t => t
  | v :: vs, pos, t => decode_arr vs (pos + 1) (lua_rawset t (.integer pos) (decode_one v))
/-- The object loop of `decode_one`: the remaining pairs and the table on the
stack. A pair with `key_len = 0` is stepped over. -/
def decode_obj : List (List UInt8 × yyjson_val) → List (LuaKey × LuaValue) →
    List (LuaKey × LuaValue)
  | [], t => t
  | (key_str, val) :: r, t =>
    if key_str.length > 0 then
      decode_obj r (lua_rawset t (decode_one_key key_str) (decode_one val))
    else decode_obj r t
end

/-! ## Notions of the specification -/

/-- The bytes of a text of ASCII characters. -/
def ascii (t : String) : List UInt8 := t.toList.map (fun c => UInt8.ofNat c.toNat)

/-- The value of a decimal digit byte. -/
def digitVal (c : UInt8) : Nat := c.toNat - 48

/-- The mathematical value of a sequence of decimal digit bytes, most significant
digit first. -/
def decval (ds : List UInt8) : Nat := Nat.ofDigits 10 (ds.reverse.map digitVal)

/-- Every byte of the sequence is a decimal digit. -/
def allDigits (ds : List UInt8) : Prop := ∀ c ∈ ds, lisdigit c = true

instance (ds : List UInt8) : Decidable (allDigits ds) := by
  unfold allDigits; infer_instance

/-- The canonical decimal rendering of a natural number: no leading zero, and
`"0"` for zero. -/
def renderNat (n : Nat) : List UInt8 :=
  if n = 0 then [48] else (Nat.digits 10 n).reverse.map (fun d => UInt8.ofNat (48 + d))

/-- The canonical decimal rendering of an integer: a `'-'` for a negative value,
then the rendering of the magnitude. -/
def renderInt (v : Int) : List UInt8 :=
  if v < 0 then 45 :: renderNat v.natAbs else renderNat v.natAbs

/-! ## Auxiliary definitions for the statements -/

/-- The loop body of `l_str2int` folded over the bytes it visits, from the
accumulator `a`: `none` when a byte is not a digit or fails the overflow test. -/
def scan (neg : Nat) : List UInt8 → Nat → Option Nat
  | [], a => some a
  | c :: cs, a =>
    if !lisdigit c then none
    else if decide (a ≥ MAXBY10) && (decide (a > MAXBY10) || decide (c.toNat - 48 > MAXLASTD + neg))
    then none
    else scan neg cs ((a * 10 + (c.toNat - 48)) % 2 ^ 64)

/-- The result of the signed conversion at the end of `l_str2int`, from the flag
`neg` and the accumulator `a`. -/
def signedResult (neg a : Nat) : Int :=
  l_castU2S (if neg ≠ 0 then (2 ^ 64 - a) % 2 ^ 64 else a)

/-- The signed value of a literal with the sign bytes `sign` and the digits `ds`. -/
def litVal (sign ds : List UInt8) : Int :=
  if sign = [45] then -(decval ds : Int) else (decval ds : Int)

/-- The largest magnitude the parser accepts after the sign bytes `sign`. -/
def litBound (sign : List UInt8) : Nat :=
  LUA_MAXINTEGER + (if sign = [45] then 1 else 0)

/-- The first byte of the key text is `'-'` or a decimal digit. -/
def startsNumeric (k : List UInt8) : Prop :=
  ∃ c, k.head? = some c ∧ (c = 45 ∨ lisdigit c = true)

instance (k : List UInt8) : Decidable (startsNumeric k) := by
  unfold startsNumeric
  cases k with
  | nil => exact isFalse (by simp)
  | cons c cs =>
    exact decidable_of_iff (c = 45 ∨ lisdigit c = true) (by simp)

/-- The key text is in canonical form: it is `"0"`, or it has no zero in front
(neither as first byte nor right after a `'-'`). -/
def canonicalText (k : List UInt8) : Prop :=
  k = [48] ∨ (k.head? ≠ some 48 ∧ k.take 2 ≠ [45, 48])

instance (k : List UInt8) : Decidable (canonicalText k) := by
  unfold canonicalText; infer_instance

/-! ## The decoder on the Lua stack -/

/-- An error raised through `luaL_error` inside `decode_one`: the message names the
place, `json.decode.array` or `json.decode.object`. The last case stands for a call
of the Lua API on a stack that does not hold what the call needs. -/
inductive LuaError where
  | stack_overflow_array
  | stack_overflow_object
  | api_misuse
  deriving DecidableEq

/-- The call `luaL_checkstack(L, space, msg)` on a stack `st` (top first). The Lua
library is not among the sources at hand: the check follows the contract of
`lua_checkstack` in the Lua reference manual, with the limit as a parameter.
`maxstack` is the largest number of slots that the stack of the call may reach
(the fixed maximum size of the Lua stack less what lies under the call); the check
succeeds when `space` more slots fit, and the error is raised otherwise. -/
def luaL_checkstack (maxstack : Nat) (st : List LuaValue) (space : Nat) : Bool :=
  decide (st.length + space ≤ maxstack)

/-- The value pushed for a key: `lua_pushinteger` or `lua_pushlstring`. -/
def LuaKey.slot : LuaKey → LuaValue
  | .integer v => .integer v
  | .string s => .string s

/-- The key that a stack slot stands for in `lua_rawset`, for the two kinds of keys
the decoder pushes. -/
def LuaValue.key? : LuaValue → Option LuaKey
  | .integer v => some (.integer v)
  | .string s => some (.string s)
  | _ => none

/-- The call `lua_rawseti(L, -2, pos)`: pops the value on top and stores it at `pos`
in the table under it. -/
def lua_rawseti_L (st : List LuaValue) (pos : Int) : Except LuaError (List LuaValue) :=
  match st with
  | v :: .table t :: rest => .ok (.table (lua_rawset t (.integer pos) v) :: rest)
  | _ => .error .api_misuse

/-- The call `lua_rawset(L, -3)`: pops the value and the key on top and stores the
value under the key in the table under them. -/
def lua_rawset_L (st : List LuaValue) : Except LuaError (List LuaValue) :=
  match st with
  | v :: k :: .table t :: rest =>
    match k.key? with
    | some key => .ok (.table (lua_rawset t key v) :: rest)
    | none => .error .api_misuse
  | _ => .error .api_misuse

mutual
/-- The function `decode_one` as it acts on the Lua stack `st` (top first): the
stack after the call, or the error raised. -/
def decode_one_L (maxstack : Nat) : yyjson_val → List LuaValue → Except LuaError (List LuaValue)
  | .null, st => .ok (.lightuserdata 0 :: st)
  | .bool b, st => .ok (.boolean b :: st)
  | .uint u, st => .ok (.integer (castInt64 u) :: st)
  | .sint i, st => .ok (.integer i :: st)
  | .real bits, st => .ok (.number bits :: st)
  | .str s, st => .ok (.string s :: st)
  | .arr vs, st =>
    if luaL_checkstack maxstack st 6 then decode_arr_L maxstack vs 1 (.table [] :: st)
    else .error .stack_overflow_array
  | .obj kvs, st =>
    if luaL_checkstack maxstack st 6 then decode_obj_L maxstack kvs (.table [] :: st)
    else .error .stack_overflow_object
/-- The array loop on the Lua stack, with the new table on top. -/
def decode_arr_L (maxstack : Nat) :
    List yyjson_val → Int → List LuaValue → Except LuaError (List LuaValue)
  | [], _, st => .ok st
  | v :: vs, pos, st =>
    match decode_one_L maxstack v st with
    | .error e => .error e
    | .ok st1 =>
      match lua_rawseti_L st1 pos with
      | .error e => .error e
      | .ok st2 => decode_arr_L maxstack vs (pos + 1) st2
/-- The object loop on the Lua stack, with the new table on top. -/
def decode_obj_L (maxstack : Nat) :
    List (List UInt8 × yyjson_val) → List LuaValue → Except LuaError (List LuaValue)
  | [], st => .ok st
  | (key_str, val) :: r, st =>
    if key_str.length > 0 then
      match decode_one_L maxstack val ((decode_one_key key_str).slot :: st) with
      | .error e => .error e
      | .ok st1 =>
        match lua_rawset_L st1 with
        | .error e => .error e
        | .ok st2 => decode_obj_L maxstack r st2
    else decode_obj_L maxstack r st
end

mutual
/-- The number of stack slots a node needs above the stack it is decoded on for
every `luaL_checkstack` in it to pass: 6 at an array or object, one more for each
array on the way to a nested node, two more for each object. -/
def stackNeed : yyjson_val → Nat
  | .arr vs => max 6 (1 + stackNeedArr vs)
  | .obj kvs => max 6 (2 + stackNeedObj kvs)
  | _ => 0
/-- The largest need among the children of an array. -/
def stackNeedArr : List yyjson_val → Nat
  | [] => 0
  | v :: vs => max (stackNeed v) (stackNeedArr vs)
/-- The largest need among the values of the pairs with non-empty key text. -/
def stackNeedObj : List (List UInt8 × yyjson_val) → Nat
  | [] => 0
  | (key_str, val) :: r =>
    if key_str.length > 0 then max (stackNeed val) (stackNeedObj r) else stackNeedObj r
end

/-- The document of `n + 1` arrays nested in one another, `[[...[]...]]`. -/
def nested : Nat → yyjson_val
  | 0 => .arr []
  | n + 1 => .arr [nested n]

/-- The result is one of the two stack overflow errors. -/
def isStackOverflow (r : Except LuaError (List LuaValue)) : Prop :=
  r = .error .stack_overflow_array ∨ r = .error .stack_overflow_object

/-! ## The entry point -/

/-- The error record of the Reader, `yyjson_read_err`: the code, the message and
the byte position. -/
structure yyjson_read_err where
  code : Nat
  msg : List UInt8
  pos : Nat

/-- The arguments of a call of `lua_json_decode`. In the string form the first
argument is a Lua string. In the other form `mem` is what `lua_touserdata` returns
for the first argument, `none` for the null pointer and the bytes at the address
otherwise, and `len` is the second argument when it is an integer. -/
inductive DecodeArgs where
  | string (s : List UInt8)
  | pointer (mem : Option (List UInt8)) (len : Option Int)

/-- What a call of `lua_json_decode` does: it returns no result, returns one value,
raises the decode error with the message, the code and the position formatted
with `%s`, `%d` and `%d`, raises an error of `decode_one`, or raises the argument
error of `luaL_checkinteger`. -/
inductive DecodeResult where
  | returns0
  | returns1 (v : LuaValue)
  | decode_error (msg : List UInt8) (code : Int) (pos : Int)
  | lua_error (e : LuaError)
  | arg_error

/-- The stack slot of the first argument, which is what `lua_settop(L, 1)` leaves
on the stack. The address of a userdata is not modelled: 0 is the null pointer. -/
def DecodeArgs.slot : DecodeArgs → LuaValue
  | .string s => .string s
  | .pointer none _ => .lightuserdata 0
  | .pointer (some _) _ => .lightuserdata 1

/-- The values of `str` and `len` after lines 143 to 153, or `none` when
`luaL_checkinteger` raises. A Lua string is followed by a zero byte in memory; the
integer `len` is converted to `size_t`. -/
def DecodeArgs.buffer : DecodeArgs → Option (Option (List UInt8) × Nat)
  | .string s => some (some (s ++ [0]), s.length)
  | .pointer mem (some len) => some (mem, (len % 2 ^ 64).toNat)
  | .pointer _ none => none

/-- The function `lua_json_decode`, with the Reader `yyjson_read_opts` as a given
function of the buffer and its length, and the room `maxstack` of the Lua stack. -/
def lua_json_decode (yyjson_read_opts : List UInt8 → Nat → Except yyjson_read_err yyjson_val)
    (maxstack : Nat) (args : DecodeArgs) : DecodeResult :=
  match args.buffer with
  | none => .arg_error
  | some (none, _) => .returns0
  | some (some str, len) =>
    if str.getD 0 0 = 0 then .returns0
    else
      match yyjson_read_opts str len with
      | .error err => .decode_error err.msg (castInt err.code) (castInt err.pos)
      | .ok root =>
        match decode_one_L maxstack root [args.slot] with
        | .error e => .lua_error e
        | .ok (v :: _) => .returns1 v
        | .ok [] => .lua_error .api_misuse

/-- The table of an ordered sequence: the values under the integer keys `pos`,
`pos + 1`, and so on. -/
def seqFrom : Int → List LuaValue → List (LuaKey × LuaValue)
  | _, [] => []
  | pos, v :: vs => (LuaKey.integer pos, v) :: seqFrom (pos + 1) vs

/-- The key text of the pair is not empty. -/
def hasKeyText (p : List UInt8 × yyjson_val) : Bool := decide (p.1 ≠ [])

/-! ## Lemmas -/

theorem getD_eq_head_drop (s : List UInt8) (i : Nat) (h : i < s.length) :
    s.drop i = s.getD i 0 :: s.drop (i + 1) := by
  rw [List.drop_eq_getElem_cons h]
  congr 1
  simp [List.getD_eq_getElem?_getD, List.getElem?_eq_getElem h]

theorem loop_eq_scan (s : List UInt8) (neg : Nat) :
    ∀ (k i a : Nat) (e : Bool), i + k ≤ s.length →
      l_str2int_loop s neg k i a e =
        (scan neg ((s.drop i).take k) a).map (fun r => (i + k, r, decide (k = 0) && e)) := by
  intro k
  induction k with
  | zero => intro i a e _; simp [l_str2int_loop, scan]
  | succ k ih =>
    intro i a e h
    have hi : i < s.length := by omega
    rw [getD_eq_head_drop s i hi, List.take_succ_cons]
    simp only [l_str2int_loop, scan]
    split
    · rfl
    · split
      · rfl
      · rw [ih (i + 1) _ false (by omega)]
        simp [Nat.add_assoc, Nat.add_comm 1 k]

theorem MAXBY10_eq : MAXBY10 = 922337203685477580 := by decide
theorem MAXLASTD_eq : MAXLASTD = 7 := by decide
theorem LUA_MAXINTEGER_eq : LUA_MAXINTEGER = 9223372036854775807 := by decide

theorem lisdigit_iff (c : UInt8) : lisdigit c = true ↔ 48 ≤ c.toNat ∧ c.toNat ≤ 57 := by
  simp [lisdigit]

theorem decval_nil : decval [] = 0 := by simp [decval]

theorem decval_cons (c : UInt8) (cs : List UInt8) :
    decval (c :: cs) = digitVal c * 10 ^ cs.length + decval cs := by
  simp [decval, Nat.ofDigits_append, Nat.mul_comm, Nat.add_comm]

theorem allDigits_cons (c : UInt8) (cs : List UInt8) :
    allDigits (c :: cs) ↔ lisdigit c = true ∧ allDigits cs := by
  simp [allDigits]

/-- The scan succeeds exactly on digit sequences whose value, read after the digits
already in the accumulator, does not exceed the bound, and it then returns that
value: the accumulator never wraps. -/
theorem scan_eq_some_iff (neg : Nat) (hneg : neg ≤ 1) (ds : List UInt8) :
    ∀ (a r : Nat), a ≤ LUA_MAXINTEGER + neg →
      (scan neg ds a = some r ↔
        allDigits ds ∧ a * 10 ^ ds.length + decval ds ≤ LUA_MAXINTEGER + neg ∧
          r = a * 10 ^ ds.length + decval ds) := by
  induction ds with
  | nil =>
    intro a r ha
    simp only [scan, decval_nil, List.length_nil, pow_zero, Nat.mul_one, Nat.add_zero,
      Option.some.injEq]
    constructor
    · intro h; exact ⟨by simp [allDigits], ha, h.symm⟩
    · intro h; exact h.2.2.symm
  | cons c cs ih =>
    intro a r ha
    rw [allDigits_cons, decval_cons]
    have hP : 0 < 10 ^ cs.length := Nat.pow_pos (by norm_num)
    have hT : a * 10 ^ (c :: cs).length + (digitVal c * 10 ^ cs.length + decval cs) =
        (a * 10 + digitVal c) * 10 ^ cs.length + decval cs := by
      simp only [List.length_cons, pow_succ]; ring
    rw [hT]
    have hge : a * 10 + digitVal c ≤ (a * 10 + digitVal c) * 10 ^ cs.length :=
      Nat.le_mul_of_pos_right _ hP
    simp only [scan]
    by_cases hc : lisdigit c = true
    · have hd := (lisdigit_iff c).1 hc
      have hdv : digitVal c = c.toNat - 48 := rfl
      simp only [hc, Bool.not_true, Bool.false_eq_true, if_false, true_and]
      rw [← hdv]
      by_cases hov : (decide (a ≥ MAXBY10) &&
          (decide (a > MAXBY10) || decide (digitVal c > MAXLASTD + neg))) = true
      · rw [if_pos hov]
        simp only [Bool.and_eq_true, Bool.or_eq_true, decide_eq_true_eq, MAXBY10_eq,
          MAXLASTD_eq] at hov
        rw [LUA_MAXINTEGER_eq] at ha ⊢
        constructor
        · intro h; cases h
        · intro h; exfalso; omega
      · rw [if_neg hov]
        simp only [Bool.and_eq_true, Bool.or_eq_true, decide_eq_true_eq, MAXBY10_eq,
          MAXLASTD_eq, not_and, not_or] at hov
        have hb : a * 10 + digitVal c ≤ LUA_MAXINTEGER + neg := by
          rw [LUA_MAXINTEGER_eq]; omega
        have hm : (a * 10 + digitVal c) % 2 ^ 64 = a * 10 + digitVal c := by
          apply Nat.mod_eq_of_lt
          rw [LUA_MAXINTEGER_eq] at hb
          have : (2 : Nat) ^ 64 = 18446744073709551616 := by norm_num
          omega
        rw [hm]
        exact ih _ r hb
    · simp only [hc, Bool.not_false, if_true, false_and]
      simp
      

theorem castInt_le (n : Nat) : castInt n ≤ (n : Int) := by
  unfold castInt
  have h := Nat.mod_le n (2 ^ 32)
  split <;> omega

theorem castInt_of_lt (n : Nat) (h : n < 2 ^ 31) : castInt n = (n : Int) := by
  unfold castInt
  have h1 : n % 2 ^ 32 = n := Nat.mod_eq_of_lt (by omega)
  rw [h1, if_pos h]

theorem isneg_snd_le (s : List UInt8) : (isneg s 0).2 ≤ 1 := by
  unfold isneg
  split
  · simp
  · split <;> simp

theorem isneg_fst_le (s : List UInt8) : (isneg s 0).1 ≤ 1 := by
  unfold isneg
  split
  · simp
  · split <;> simp

/-- The parser in terms of the scan: on a non-empty buffer it scans the
`(int)len - b` bytes after the sign cursor `b`, fails when there are none, and
returns the offset `b + ((int)len - b) = (int)len`. -/
theorem l_str2int_eq_scan (s : List UInt8) (hs : s ≠ []) :
    l_str2int s =
      (scan (isneg s 0).1
          ((s.drop (isneg s 0).2).take (castInt s.length - ((isneg s 0).2 : Int)).toNat) 0).bind
        (fun a =>
          if (castInt s.length - ((isneg s 0).2 : Int)).toNat = 0 then none
          else some (signedResult (isneg s 0).1 a,
            (isneg s 0).2 + (castInt s.length - ((isneg s 0).2 : Int)).toNat)) := by
  have hlen : s.length ≠ 0 := by
    intro h; exact hs (List.length_eq_zero.1 h)
  have hb := isneg_snd_le s
  have hc := castInt_le s.length
  have hk : (isneg s 0).2 + (castInt s.length - ((isneg s 0).2 : Int)).toNat ≤ s.length := by
    omega
  unfold l_str2int
  rw [if_neg hlen]
  simp only []
  rw [loop_eq_scan s _ _ _ 0 true hk]
  cases hsc : scan (isneg s 0).1
      ((s.drop (isneg s 0).2).take (castInt s.length - ((isneg s 0).2 : Int)).toNat) 0 with
  | none => simp
  | some a =>
    by_cases hz : (castInt s.length - ((isneg s 0).2 : Int)).toNat = 0
    · simp [hz]
    · simp [hz, signedResult]

theorem signedResult_zero (a : Nat) (h : a ≤ LUA_MAXINTEGER) : signedResult 0 a = (a : Int) := by
  rw [LUA_MAXINTEGER_eq] at h
  have h64 : (2 : Nat) ^ 64 = 18446744073709551616 := by norm_num
  have h63 : (2 : Nat) ^ 63 = 9223372036854775808 := by norm_num
  have hm : a % 2 ^ 64 = a := Nat.mod_eq_of_lt (by omega)
  simp only [signedResult, l_castU2S, castInt64, ne_eq, not_true_eq_false, if_false, hm]
  rw [if_pos (by omega)]

theorem signedResult_one (a : Nat) (h : a ≤ LUA_MAXINTEGER + 1) :
    signedResult 1 a = -(a : Int) := by
  rw [LUA_MAXINTEGER_eq] at h
  have h64 : (2 : Nat) ^ 64 = 18446744073709551616 := by norm_num
  have h63 : (2 : Nat) ^ 63 = 9223372036854775808 := by norm_num
  have h64i : (2 : Int) ^ 64 = 18446744073709551616 := by norm_num
  simp only [signedResult, l_castU2S, castInt64, ne_eq, one_ne_zero, not_false_eq_true, if_true,
    Nat.mod_mod]
  by_cases ha : a = 0
  · subst ha; simp
  · have hm : (2 ^ 64 - a) % 2 ^ 64 = 2 ^ 64 - a := Nat.mod_eq_of_lt (by omega)
    rw [hm, if_neg (by omega)]
    rw [h64i]
    omega

theorem isneg_cases (s : List UInt8) :
    (s.getD 0 0 = 45 ∧ isneg s 0 = (1, 1)) ∨ (s.getD 0 0 = 43 ∧ isneg s 0 = (0, 1)) ∨
      (s.getD 0 0 ≠ 45 ∧ s.getD 0 0 ≠ 43 ∧ isneg s 0 = (0, 0)) := by
  unfold isneg
  by_cases h1 : s.getD 0 0 = 45
  · left; rw [if_pos h1]; exact ⟨h1, rfl⟩
  · by_cases h2 : s.getD 0 0 = 43
    · right; left; rw [if_neg h1, if_pos h2]; exact ⟨h2, rfl⟩
    · right; right; rw [if_neg h1, if_neg h2]; exact ⟨h1, h2, rfl⟩

theorem digit_ne_sign (c : UInt8) (h : lisdigit c = true) : c ≠ 45 ∧ c ≠ 43 := by
  have hd := (lisdigit_iff c).1 h
  constructor <;> (intro hc; subst hc; revert hd; decide)

/-- What `isneg` returns on a literal: the flag is 1 exactly for a `'-'`, and the
cursor stands after the sign bytes. -/
theorem isneg_literal (sign ds : List UInt8) (hsign : sign = [] ∨ sign = [43] ∨ sign = [45])
    (hne : ds ≠ []) (hd : allDigits ds) :
    isneg (sign ++ ds) 0 = (if sign = [45] then 1 else 0, sign.length) := by
  rcases hsign with h | h | h
  · subst h
    cases ds with
    | nil => exact absurd rfl hne
    | cons c cs =>
      have hc := digit_ne_sign c ((allDigits_cons c cs).1 hd).1
      simp [isneg, hc.1, hc.2]
  · subst h; simp [isneg]
  · subst h; simp [isneg]

/-- The parser on a literal whose buffer is shorter than `2 ^ 31` bytes, where the
casts of the length to `int` are exact: it succeeds exactly when the magnitude is
within the bound of the sign, with the exact value and the whole length as
offset. -/
theorem l_str2int_literal (sign ds : List UInt8)
    (hsign : sign = [] ∨ sign = [43] ∨ sign = [45]) (hne : ds ≠ []) (hd : allDigits ds)
    (hlen : (sign ++ ds).length < 2 ^ 31) :
    l_str2int (sign ++ ds) =
      if decval ds ≤ litBound sign then some (litVal sign ds, (sign ++ ds).length) else none := by
  have hs : sign ++ ds ≠ [] := by simp [hne]
  have hdl : 0 < ds.length := List.length_pos.2 hne
  rw [l_str2int_eq_scan _ hs, isneg_literal sign ds hsign hne hd, castInt_of_lt _ hlen]
  have hk : (((sign ++ ds).length : Int) - (sign.length : Int)).toNat = ds.length := by
    simp
  simp only [hk, List.drop_left, List.take_length]
  have hnegle : (if sign = [45] then 1 else 0) ≤ 1 := by split <;> simp
  have hsc := scan_eq_some_iff (if sign = [45] then 1 else 0) hnegle ds 0
  simp only [Nat.zero_mul, Nat.zero_add, Nat.zero_le, forall_const] at hsc
  by_cases hv : decval ds ≤ litBound sign
  · rw [if_pos hv]
    have h1 : scan (if sign = [45] then 1 else 0) ds 0 = some (decval ds) :=
      (hsc (decval ds)).2 ⟨hd, hv, rfl⟩
    rw [h1]
    simp only [Option.some_bind, if_neg (Nat.pos_iff_ne_zero.1 hdl), List.length_append]
    congr 2
    unfold litVal litBound at *
    by_cases hm : sign = [45]
    · simp only [hm, if_true] at hv ⊢
      exact signedResult_one _ hv
    · simp only [hm, if_false] at hv ⊢
      exact signedResult_zero _ hv
  · rw [if_neg hv]
    have h1 : scan (if sign = [45] then 1 else 0) ds 0 = none := by
      cases hsome : scan (if sign = [45] then 1 else 0) ds 0 with
      | none => rfl
      | some r => exact absurd ((hsc r).1 hsome).2.1 hv
    rw [h1]; rfl

theorem castInt_eq_self (n : Nat) (h : castInt n = (n : Int)) : n < 2 ^ 31 := by
  unfold castInt at h
  have hm := Nat.mod_lt n (show 0 < 2 ^ 32 by norm_num)
  have hle := Nat.mod_le n (2 ^ 32)
  split at h
  · omega
  · omega

/-- Every success of the parser: the offset is `(int)len`, at least one byte after
the sign cursor was scanned, the scanned bytes are digits whose value is within
the bound of the sign, and the result is that value with its sign. -/
theorem l_str2int_some (s : List UInt8) (v : Int) (off : Nat)
    (h : l_str2int s = some (v, off)) :
    (off : Int) = castInt s.length ∧ (isneg s 0).2 < off ∧ off ≤ s.length ∧
      allDigits ((s.drop (isneg s 0).2).take (off - (isneg s 0).2)) ∧
      decval ((s.drop (isneg s 0).2).take (off - (isneg s 0).2)) ≤
        LUA_MAXINTEGER + (isneg s 0).1 ∧
      v = signedResult (isneg s 0).1
        (decval ((s.drop (isneg s 0).2).take (off - (isneg s 0).2))) := by
  have hs : s ≠ [] := by
    intro h0; subst h0; simp [l_str2int] at h
  rw [l_str2int_eq_scan s hs] at h
  have hc := castInt_le s.length
  cases hsc : scan (isneg s 0).1
      ((s.drop (isneg s 0).2).take (castInt s.length - ((isneg s 0).2 : Int)).toNat) 0 with
  | none => rw [hsc] at h; simp at h
  | some a =>
    rw [hsc] at h
    by_cases hz : (castInt s.length - ((isneg s 0).2 : Int)).toNat = 0
    · simp [hz] at h
    · simp only [Option.some_bind, if_neg hz, Option.some.injEq, Prod.mk.injEq] at h
      obtain ⟨hv, hoff⟩ := h
      have hk : off - (isneg s 0).2 = (castInt s.length - ((isneg s 0).2 : Int)).toNat := by
        omega
      rw [hk]
      have hx := (scan_eq_some_iff (isneg s 0).1 (isneg_fst_le s) _ 0 a (Nat.zero_le _)).1 hsc
      simp only [Nat.zero_mul, Nat.zero_add] at hx
      refine ⟨by omega, by omega, by omega, hx.1, hx.2.1, ?_⟩
      rw [← hv, hx.2.2]

theorem take_isneg (s : List UInt8) (hs : s ≠ []) :
    (s.take (isneg s 0).2 = [] ∧ (isneg s 0).1 = 0 ∧ s.getD 0 0 ≠ 45 ∧ s.getD 0 0 ≠ 43) ∨
      (s.take (isneg s 0).2 = [43] ∧ (isneg s 0).1 = 0) ∨
      (s.take (isneg s 0).2 = [45] ∧ (isneg s 0).1 = 1) := by
  cases s with
  | nil => exact absurd rfl hs
  | cons c cs =>
    rcases isneg_cases (c :: cs) with h | h | h
    · right; right
      rw [h.2]
      have hc : c = 45 := by simpa using h.1
      simp [hc]
    · right; left
      rw [h.2]
      have hc : c = 43 := by simpa using h.1
      simp [hc]
    · left
      rw [h.2.2]
      exact ⟨by simp, rfl, h.1, h.2.1⟩

/-- A success with the whole length as offset: the buffer is a literal shorter than
`2 ^ 31` bytes, and the result is its value. -/
theorem l_str2int_full (s : List UInt8) (v : Int) (h : l_str2int s = some (v, s.length)) :
    s.length < 2 ^ 31 ∧
      ∃ sign ds, s = sign ++ ds ∧ (sign = [] ∨ sign = [43] ∨ sign = [45]) ∧ ds ≠ [] ∧
        allDigits ds ∧ decval ds ≤ litBound sign ∧ v = litVal sign ds ∧
        (sign = [] → s.getD 0 0 ≠ 45 ∧ s.getD 0 0 ≠ 43) := by
  have hs : s ≠ [] := by
    intro h0; subst h0; simp [l_str2int] at h
  obtain ⟨h1, h2, _, h4, h5, h6⟩ := l_str2int_some s v s.length h
  have htk : (s.drop (isneg s 0).2).take (s.length - (isneg s 0).2) = s.drop (isneg s 0).2 := by
    apply List.take_of_length_le; simp
  rw [htk] at h4 h5 h6
  refine ⟨castInt_eq_self _ h1.symm, s.take (isneg s 0).2, s.drop (isneg s 0).2,
    (List.take_append_drop _ s).symm, ?_, ?_, h4, ?_, ?_, ?_⟩
  · rcases take_isneg s hs with h | h | h
    · exact Or.inl h.1
    · exact Or.inr (Or.inl h.1)
    · exact Or.inr (Or.inr h.1)
  · intro h0
    have := congrArg List.length h0
    simp at this; omega
  · rcases take_isneg s hs with h | h | h
    · rw [h.1]; rw [h.2.1] at h5; simpa [litBound] using h5
    · rw [h.1]; rw [h.2] at h5; simpa [litBound] using h5
    · rw [h.1]; rw [h.2] at h5; simpa [litBound] using h5
  · rcases take_isneg s hs with h | h | h
    · rw [h.1, h6, h.2.1]; rw [h.2.1] at h5
      simpa [litVal] using signedResult_zero _ h5
    · rw [h.1, h6, h.2]; rw [h.2] at h5
      simpa [litVal] using signedResult_zero _ h5
    · rw [h.1, h6, h.2]; rw [h.2] at h5
      simpa [litVal] using signedResult_one _ h5
  · intro h0
    rcases take_isneg s hs with h | h | h
    · exact h.2.2
    · rw [h0] at h; simp at h
    · rw [h0] at h; simp at h

theorem digitVal_ofNat (d : Nat) (h : d < 10) : digitVal (UInt8.ofNat (48 + d)) = d := by
  interval_cases d <;> decide

theorem lisdigit_ofNat (d : Nat) (h : d < 10) : lisdigit (UInt8.ofNat (48 + d)) = true := by
  interval_cases d <;> decide

theorem ofNat_digitVal (c : UInt8) (h : lisdigit c = true) : UInt8.ofNat (48 + digitVal c) = c := by
  have hd := (lisdigit_iff c).1 h
  have hlt := UInt8.toNat_lt c
  apply UInt8.toNat.inj
  have hm : (UInt8.ofNat (48 + digitVal c)).toNat = (48 + digitVal c) % 256 := rfl
  rw [hm]
  unfold digitVal
  omega

theorem digitVal_lt (c : UInt8) (h : lisdigit c = true) : digitVal c < 10 := by
  have := (lisdigit_iff c).1 h
  unfold digitVal; omega

theorem renderNat_ne_nil (n : Nat) : renderNat n ≠ [] := by
  unfold renderNat
  split
  · simp
  · rename_i h
    simpa [Nat.digits_eq_nil_iff_eq_zero] using h

theorem renderNat_allDigits (n : Nat) : allDigits (renderNat n) := by
  unfold renderNat allDigits
  split
  · intro c hc
    have : c = 48 := by simpa using hc
    subst this; decide
  · intro c hc
    simp only [List.mem_map, List.mem_reverse] at hc
    obtain ⟨d, hd, rfl⟩ := hc
    exact lisdigit_ofNat d (Nat.digits_lt_base (by norm_num) hd)

theorem decval_renderNat (n : Nat) : decval (renderNat n) = n := by
  unfold renderNat decval
  split
  · rename_i h; subst h; decide
  · rw [← List.map_reverse, List.reverse_reverse, List.map_map]
    have : List.map (digitVal ∘ fun d => UInt8.ofNat (48 + d)) (Nat.digits 10 n) =
        Nat.digits 10 n := by
      conv_rhs => rw [← List.map_id (Nat.digits 10 n)]
      apply List.map_congr_left
      intro d hd
      exact digitVal_ofNat d (Nat.digits_lt_base (by norm_num) hd)
    rw [this, Nat.ofDigits_digits]

theorem renderNat_length (n : Nat) (h : n ≤ 2 ^ 63) : (renderNat n).length ≤ 19 := by
  unfold renderNat
  split
  · simp
  · simp only [List.length_map, List.length_reverse]
    have h1 := Nat.le_digits_len_le 10 n (2 ^ 63) h
    have h2 : (Nat.digits 10 (2 ^ 63)).length = 19 := by norm_num
    omega

theorem renderInt_eq (v : Int) :
    renderInt v = (if v < 0 then [45] else []) ++ renderNat v.natAbs := by
  unfold renderInt; split <;> rfl

/-- The parser maps the canonical rendering of a 64-bit signed integer back to
the integer and consumes the whole rendering. -/
theorem l_str2int_renderInt (v : Int) (h1 : -2 ^ 63 ≤ v) (h2 : v < 2 ^ 63) :
    l_str2int (renderInt v) = some (v, (renderInt v).length) := by
  have hn : v.natAbs ≤ 2 ^ 63 := by omega
  have hl := renderNat_length _ hn
  rw [renderInt_eq]
  by_cases hv : v < 0
  · simp only [hv, if_true]
    rw [l_str2int_literal [45] _ (Or.inr (Or.inr rfl)) (renderNat_ne_nil _)
      (renderNat_allDigits _) (by simp only [List.length_append, List.length_singleton]; omega)]
    rw [decval_renderNat]
    have hb : v.natAbs ≤ litBound [45] := by
      simp only [litBound, LUA_MAXINTEGER_eq, if_true]; omega
    rw [if_pos hb]
    congr 2
    simp only [litVal, if_true, decval_renderNat]
    omega
  · simp only [hv, if_false]
    rw [l_str2int_literal [] _ (Or.inl rfl) (renderNat_ne_nil _)
      (renderNat_allDigits _) (by simp only [List.length_append, List.length_nil]; omega)]
    rw [decval_renderNat]
    have hb : v.natAbs ≤ litBound [] := by
      simp [litBound, LUA_MAXINTEGER_eq]; omega
    rw [if_pos hb]
    congr 2
    simp [litVal, decval_renderNat]
    omega

/-- A buffer whose length, cast to `int`, does not exceed the sign cursor is
rejected: the loop is not entered. -/
theorem l_str2int_none_of_castInt_le (s : List UInt8)
    (h : castInt s.length ≤ ((isneg s 0).2 : Int)) : l_str2int s = none := by
  by_cases hs : s = []
  · subst hs; simp [l_str2int]
  · rw [l_str2int_eq_scan s hs]
    have hz : (castInt s.length - ((isneg s 0).2 : Int)).toNat = 0 := by omega
    rw [hz]
    simp [scan]

/-- A buffer of `n + 1` bytes with `(int)(n + 1) = 1` that starts with the digit
`'1'`: the loop reads the first byte only, whatever the bytes after it. -/
theorem l_str2int_one_then (n : Nat) (x : UInt8) (h : castInt (n + 1) = 1) :
    l_str2int (49 :: List.replicate n x) = some (1, 1) := by
  have hs : (49 :: List.replicate n x) ≠ [] := by simp
  have hi : isneg (49 :: List.replicate n x) 0 = (0, 0) := by
    simp [isneg]
  rw [l_str2int_eq_scan _ hs, hi]
  have hl : (49 :: List.replicate n x).length = n + 1 := by simp
  rw [hl, h]
  have hsc : scan 0 [49] 0 = some 1 := by decide
  have hr : signedResult 0 1 = 1 := by decide
  simp [hsc, hr]

theorem decval_replicate_zero (n : Nat) : decval (List.replicate n 48) = 0 := by
  induction n with
  | zero => exact decval_nil
  | succ n ih => rw [List.replicate_succ, decval_cons, ih, show digitVal 48 = 0 by decide]; simp

theorem allDigits_replicate (n : Nat) (c : UInt8) (h : lisdigit c = true) :
    allDigits (List.replicate n c) := by
  intro x hx
  rw [(List.mem_replicate.1 hx).2]; exact h

theorem decode_one_obj (kvs : List (List UInt8 × yyjson_val)) :
    decode_one (.obj kvs) = .table (decode_obj kvs []) := by
  simp [decode_one]

theorem decode_obj_nil (t : List (LuaKey × LuaValue)) : decode_obj [] t = t := by
  simp [decode_obj]

theorem decode_obj_cons (k : List UInt8) (x : yyjson_val) (r : List (List UInt8 × yyjson_val))
    (t : List (LuaKey × LuaValue)) (hk : k ≠ []) :
    decode_obj ((k, x) :: r) t = decode_obj r (lua_rawset t (decode_one_key k) (decode_one x)) := by
  have : k.length > 0 := List.length_pos.2 hk
  simp [decode_obj, this]

theorem decode_obj_cons_empty (x : yyjson_val) (r : List (List UInt8 × yyjson_val))
    (t : List (LuaKey × LuaValue)) :
    decode_obj (([], x) :: r) t = decode_obj r t := by
  simp [decode_obj]

theorem startsNumeric_iff (k : List UInt8) (hk : k ≠ []) :
    startsNumeric k ↔
      ((k.getD 0 0 = 45 || (decide (48 ≤ (k.getD 0 0).toNat) && decide ((k.getD 0 0).toNat ≤ 57)))
        = true) := by
  cases k with
  | nil => exact absurd rfl hk
  | cons c cs => simp [startsNumeric, lisdigit]

/-- The key pushed for a non-empty key text is the integer `v` exactly when the
text starts with `'-'` or a digit and the parser returns `v` with the end of the
text as offset. -/
theorem decode_one_key_integer_iff (k : List UInt8) (hk : k ≠ []) (v : Int) :
    decode_one_key k = LuaKey.integer v ↔
      startsNumeric k ∧ l_str2int k = some (v, k.length) := by
  rw [startsNumeric_iff k hk]
  unfold decode_one_key
  simp only []
  by_cases hc : (k.getD 0 0 = 45 ||
      (decide (48 ≤ (k.getD 0 0).toNat) && decide ((k.getD 0 0).toNat ≤ 57))) = true
  · rw [if_pos hc]
    simp only [hc, true_and]
    cases hp : l_str2int k with
    | none => simp
    | some r =>
      obtain ⟨w, i⟩ := r
      by_cases hi : i = k.length
      · simp [hi]
      · simp [hi]
  · rw [if_neg hc]
    constructor
    · intro h; cases h
    · intro h; exact absurd h.1 hc

theorem decode_one_key_cases (k : List UInt8) :
    decode_one_key k = LuaKey.string k ∨ ∃ v, decode_one_key k = LuaKey.integer v := by
  unfold decode_one_key
  simp only []
  split
  · split
    · split
      · right; exact ⟨_, rfl⟩
      · left; rfl
    · left; rfl
  · left; rfl

/-- In every other case the key pushed is the key text itself. -/
theorem decode_one_key_string (k : List UInt8) (hk : k ≠ [])
    (h : ¬ ∃ v, startsNumeric k ∧ l_str2int k = some (v, k.length)) :
    decode_one_key k = LuaKey.string k := by
  rcases decode_one_key_cases k with h1 | ⟨v, hv⟩
  · exact h1
  · exact absurd ⟨v, (decode_one_key_integer_iff k hk v).1 hv⟩ h

theorem lua_rawget_rawset (t : List (LuaKey × LuaValue)) (k k2 : LuaKey) (v : LuaValue) :
    lua_rawget (lua_rawset t k v) k2 = if k = k2 then some v else lua_rawget t k2 := by
  induction t with
  | nil => simp [lua_rawset, lua_rawget]
  | cons e r ih =>
    unfold lua_rawset
    by_cases h1 : e.1 = k
    · rw [if_pos h1]
      by_cases h2 : k = k2
      · simp [lua_rawget, h2]
      · have h3 : ¬ e.1 = k2 := by rw [h1]; exact h2
        simp [lua_rawget, h2, h3]
    · rw [if_neg h1]
      by_cases h3 : e.1 = k2
      · have h2 : ¬ k = k2 := by rw [← h3]; exact fun h => h1 h.symm
        simp [lua_rawget, h2, h3]
      · simp [lua_rawget, h3, ih]

/-- The table built by the object loop has no entry under a key exactly when the
table it started from has none and no pair with non-empty key text decodes to that
key. -/
theorem decode_obj_rawget_none (K : LuaKey) (kvs : List (List UInt8 × yyjson_val)) :
    ∀ t : List (LuaKey × LuaValue),
      lua_rawget (decode_obj kvs t) K = none ↔
        lua_rawget t K = none ∧ ∀ p ∈ kvs, p.1 ≠ [] → decode_one_key p.1 ≠ K := by
  induction kvs with
  | nil => intro t; simp [decode_obj_nil]
  | cons p r ih =>
    intro t
    obtain ⟨k, x⟩ := p
    by_cases hk : k = []
    · subst hk
      rw [decode_obj_cons_empty, ih]
      simp
    · rw [decode_obj_cons k x r t hk, ih, lua_rawget_rawset]
      by_cases hK : decode_one_key k = K
      · simp [hK, hk]
      · simp [hK]

theorem digitVal_eq_zero (c : UInt8) (h : lisdigit c = true) (h0 : digitVal c = 0) : c = 48 := by
  have := ofNat_digitVal c h
  rw [h0] at this
  exact this.symm

theorem decval_pos (c : UInt8) (cs : List UInt8) (hc : lisdigit c = true) (h48 : c ≠ 48) :
    decval (c :: cs) ≠ 0 := by
  rw [decval_cons]
  have h1 : digitVal c ≠ 0 := fun h => h48 (digitVal_eq_zero c hc h)
  have h2 : 0 < 10 ^ cs.length := Nat.pow_pos (by norm_num)
  have h3 : 0 < digitVal c * 10 ^ cs.length := Nat.mul_pos (Nat.pos_of_ne_zero h1) h2
  omega

/-- Rendering the value of a digit sequence without a leading zero gives the
sequence back. -/
theorem renderNat_decval (c : UInt8) (cs : List UInt8) (hd : allDigits (c :: cs))
    (h48 : c ≠ 48) : renderNat (decval (c :: cs)) = c :: cs := by
  have hc := ((allDigits_cons c cs).1 hd).1
  have hpos := decval_pos c cs hc h48
  unfold renderNat
  rw [if_neg hpos]
  unfold decval
  rw [Nat.digits_ofDigits 10 (by norm_num)]
  · rw [← List.map_reverse, List.reverse_reverse, List.map_map]
    conv_rhs => rw [← List.map_id (c :: cs)]
    apply List.map_congr_left
    intro x hx
    exact ofNat_digitVal x (hd x hx)
  · intro l hl
    simp only [List.mem_map, List.mem_reverse] at hl
    obtain ⟨x, hx, rfl⟩ := hl
    exact digitVal_lt x (hd x hx)
  · intro hne
    have : List.map digitVal (c :: cs).reverse = List.map digitVal cs.reverse ++ [digitVal c] := by
      simp
    simp only [this, List.getLast_append_singleton]
    exact fun h => h48 (digitVal_eq_zero c hc h)

/-- The rendering of a positive number starts with a digit that is not zero. -/
theorem renderNat_head (n : Nat) (hn : n ≠ 0) :
    ∃ c cs, renderNat n = c :: cs ∧ lisdigit c = true ∧ c ≠ 48 := by
  have hne : Nat.digits 10 n ≠ [] := Nat.digits_ne_nil_iff_ne_zero.2 hn
  have hlast := Nat.getLast_digit_ne_zero 10 hn
  have hlt : (Nat.digits 10 n).getLast hne < 10 :=
    Nat.digits_lt_base (by norm_num) (List.getLast_mem hne)
  have hsplit := List.dropLast_append_getLast hne
  refine ⟨UInt8.ofNat (48 + (Nat.digits 10 n).getLast hne),
    (Nat.digits 10 n).dropLast.reverse.map (fun d => UInt8.ofNat (48 + d)), ?_,
    lisdigit_ofNat _ hlt, ?_⟩
  · unfold renderNat
    rw [if_neg hn]
    conv_lhs => rw [← hsplit]
    simp
  · intro h
    have h2 := digitVal_ofNat _ hlt
    rw [h] at h2
    exact hlast (by rw [← h2]; decide)

theorem canonicalText_renderInt (v : Int) : canonicalText (renderInt v) := by
  unfold renderInt
  by_cases hv : v < 0
  · rw [if_pos hv]
    obtain ⟨c, cs, h1, _, h3⟩ := renderNat_head v.natAbs (by omega)
    rw [h1]
    right
    refine ⟨by simp, ?_⟩
    simp only [List.take_succ_cons, List.take_zero]
    intro h
    exact h3 (by simpa using h)
  · rw [if_neg hv]
    by_cases h0 : v.natAbs = 0
    · left; rw [h0]; rfl
    · obtain ⟨c, cs, h1, _, h3⟩ := renderNat_head v.natAbs h0
      rw [h1]
      right
      constructor
      · simpa using h3
      · cases cs with
        | nil => simp
        | cons d ds =>
          simp only [List.take_succ_cons, List.take_zero]
          intro h
          have hc : c = 45 := by simpa using (List.cons.inj h).1
          have := (digit_ne_sign c (by assumption)).1
          exact this hc

/-- Rendering the value of a literal in canonical form gives its text back. -/
theorem renderInt_litVal (sign ds : List UInt8) (hsign : sign = [] ∨ sign = [45])
    (hne : ds ≠ []) (hd : allDigits ds) (hcan : canonicalText (sign ++ ds)) :
    renderInt (litVal sign ds) = sign ++ ds := by
  cases ds with
  | nil => exact absurd rfl hne
  | cons c cs =>
    have hc := ((allDigits_cons c cs).1 hd).1
    rcases hsign with h | h
    · subst h
      simp only [List.nil_append] at hcan ⊢
      rcases hcan with h0 | ⟨h1, _⟩
      · rw [h0]; decide
      · have h48 : c ≠ 48 := by simpa using h1
        have hpos := decval_pos c cs hc h48
        have hlv : litVal [] (c :: cs) = (decval (c :: cs) : Int) := by simp [litVal]
        rw [hlv]
        unfold renderInt
        rw [if_neg (by omega)]
        simp only [Int.natAbs_ofNat]
        exact renderNat_decval c cs hd h48
    · subst h
      rcases hcan with h0 | ⟨_, h2⟩
      · simp at h0
      · have h48 : c ≠ 48 := by
          intro hc48; subst hc48
          apply h2; simp
        have hpos := decval_pos c cs hc h48
        have hlv : litVal [45] (c :: cs) = -(decval (c :: cs) : Int) := by simp [litVal]
        rw [hlv]
        unfold renderInt
        rw [if_pos (by omega)]
        simp only [Int.natAbs_neg, Int.natAbs_ofNat]
        rw [renderNat_decval c cs hd h48]
        rfl

/-! ## The claims -/

theorem l_str2int_replicate_none (n : Nat) (c : UInt8) (h : castInt n ≤ 0) :
    l_str2int (List.replicate n c) = none := by
  apply l_str2int_none_of_castInt_le
  rw [List.length_replicate]
  have : (0 : Int) ≤ ((isneg (List.replicate n c) 0).2 : Int) := Int.ofNat_nonneg _
  omega

theorem decval_one_then_zeros (n : Nat) : decval (49 :: List.replicate n 48) = 10 ^ n := by
  rw [decval_cons, decval_replicate_zero, List.length_replicate, show digitVal 49 = 1 by decide]
  simp

theorem decval_zeros_then (n : Nat) (ds : List UInt8) :
    decval (List.replicate n 48 ++ ds) = decval ds := by
  induction n with
  | zero => simp
  | succ n ih =>
    rw [List.replicate_succ, List.cons_append, decval_cons, ih, show digitVal 48 = 0 by decide]
    simp

theorem big_pow_gt (n : Nat) (h : 19 ≤ n) : LUA_MAXINTEGER < 10 ^ n := by
  have h1 : 10 ^ 19 ≤ 10 ^ n := Nat.pow_le_pow_right (by norm_num) h
  have h2 : LUA_MAXINTEGER < 10 ^ 19 := by rw [LUA_MAXINTEGER_eq]; norm_num
  omega

/-- C1, at the failing input. The buffer of 2147483648 bytes `'0'` is a decimal
literal of value 0, inside the signed 64-bit range, and `l_str2int` rejects it
instead of returning 0 with the whole length as offset: `(int)len` is negative,
so the loop is not entered and `empty` stays set. -/
theorem C1_long_zero_literal_rejected :
    allDigits (List.replicate 2147483648 48) ∧ decval (List.replicate 2147483648 48) = 0 ∧
      l_str2int (List.replicate 2147483648 48) = none :=
  ⟨allDigits_replicate 2147483648 48 (by decide), decval_replicate_zero 2147483648,
    l_str2int_replicate_none 2147483648 48 (by decide)⟩

/-- C2, at the failing input. The buffer of the digit `'1'` followed by 4294967296
digits `'0'` is a decimal literal whose value exceeds `LUA_MAXINTEGER`, and
`l_str2int` does not fail on it: `(int)len` is 1, the loop reads the first digit
only, and the call stores the truncated value 1 and returns `s + 1`. -/
theorem C2_long_literal_truncated :
    allDigits (49 :: List.replicate 4294967296 48) ∧
      LUA_MAXINTEGER < decval (49 :: List.replicate 4294967296 48) ∧
      l_str2int (49 :: List.replicate 4294967296 48) = some (1, 1) := by
  refine ⟨?_, ?_, l_str2int_one_then 4294967296 48 (by decide)⟩
  · rw [allDigits_cons]
    exact ⟨by decide, allDigits_replicate 4294967296 48 (by decide)⟩
  · rw [decval_one_then_zeros]
    exact big_pow_gt 4294967296 (by norm_num)

/-- C3. At the saturation boundary `l_str2int` accepts `"-9223372036854775808"`
with the value `-2 ^ 63` and `"9223372036854775807"` with the value `2 ^ 63 - 1`,
each with the whole length as offset, and it rejects `"9223372036854775808"` and
`"-9223372036854775809"`. -/
theorem C3_saturation_boundary :
    l_str2int (ascii "-9223372036854775808") = some (-2 ^ 63, 20) ∧
      l_str2int (ascii "9223372036854775807") = some (2 ^ 63 - 1, 19) ∧
      l_str2int (ascii "9223372036854775808") = none ∧
      l_str2int (ascii "-9223372036854775809") = none := by
  refine ⟨by decide, by decide, by decide, by decide⟩

/-- C4, at the failing input. The buffer of the digit `'1'` followed by 4294967296
letters `'a'` has non-digit bytes after its first byte, and `l_str2int` does not
fail on it: `(int)len` is 1, the loop reads the first digit only, and the call
returns `s + 1` with the value 1. -/
theorem C4_long_non_digit_tail_accepted :
    (97 : UInt8) ∈ List.replicate 4294967296 (97 : UInt8) ∧ lisdigit 97 = false ∧
      l_str2int (49 :: List.replicate 4294967296 97) = some (1, 1) :=
  ⟨List.mem_replicate.2 ⟨by norm_num, rfl⟩, by decide,
    l_str2int_one_then 4294967296 97 (by decide)⟩

/-- On buffers shorter than `2 ^ 31` bytes the parser accepts literals only: a
buffer that is not an optional sign followed by one or more digits is rejected. -/
theorem l_str2int_short_none (s : List UInt8) (hlen : s.length < 2 ^ 31)
    (hnot : ¬ ∃ sign ds, s = sign ++ ds ∧ (sign = [] ∨ sign = [43] ∨ sign = [45]) ∧
      ds ≠ [] ∧ allDigits ds) : l_str2int s = none := by
  cases hp : l_str2int s with
  | none => rfl
  | some r =>
    obtain ⟨v, off⟩ := r
    exfalso
    have h1 := (l_str2int_some s v off hp).1
    rw [castInt_of_lt _ hlen] at h1
    have h2 : off = s.length := by omega
    rw [h2] at hp
    obtain ⟨_, sign, ds, e1, e2, e3, e4, _⟩ := l_str2int_full s v hp
    exact hnot ⟨sign, ds, e1, e2, e3, e4⟩

theorem startsNumeric_renderInt (v : Int) : startsNumeric (renderInt v) := by
  unfold renderInt
  split
  · exact ⟨45, rfl, Or.inl rfl⟩
  · have hne := renderNat_ne_nil v.natAbs
    have hd := renderNat_allDigits v.natAbs
    cases h : renderNat v.natAbs with
    | nil => exact absurd h hne
    | cons c cs =>
      rw [h] at hd
      exact ⟨c, rfl, Or.inr ((allDigits_cons c cs).1 hd).1⟩

theorem renderInt_ne_nil (v : Int) : renderInt v ≠ [] := by
  unfold renderInt
  split
  · simp
  · exact renderNat_ne_nil _

/-- The key pushed for the canonical rendering of a 64-bit signed integer is the
integer. -/
theorem decode_one_key_renderInt (v : Int) (h1 : -2 ^ 63 ≤ v) (h2 : v < 2 ^ 63) :
    decode_one_key (renderInt v) = LuaKey.integer v :=
  (decode_one_key_integer_iff _ (renderInt_ne_nil v) v).2
    ⟨startsNumeric_renderInt v, l_str2int_renderInt v h1 h2⟩

theorem decode_one_single (k : List UInt8) (x : yyjson_val) (hk : k ≠ []) :
    decode_one (.obj [(k, x)]) = .table [(decode_one_key k, decode_one x)] := by
  rw [decode_one_obj, decode_obj_cons k x [] [] hk, decode_obj_nil]
  rfl

/-- C5. For an object pair with non-empty key text, the object loop of `decode_one`
inserts the decoded value under the integer key `v` when the first byte of the key
is `'-'` or a decimal digit and `l_str2int` on the whole key succeeds with the
value `v` and the length of the key as offset; in every other case it inserts it
under the key text itself. The key pushed is the integer `v` exactly in the first
case. -/
theorem C5_key_coercion (key_str : List UInt8) (val : yyjson_val)
    (r : List (List UInt8 × yyjson_val)) (t : List (LuaKey × LuaValue))
    (hne : key_str ≠ []) :
    (∀ v, startsNumeric key_str ∧ l_str2int key_str = some (v, key_str.length) →
        decode_obj ((key_str, val) :: r) t =
          decode_obj r (lua_rawset t (LuaKey.integer v) (decode_one val))) ∧
      ((¬ ∃ v, startsNumeric key_str ∧ l_str2int key_str = some (v, key_str.length)) →
        decode_obj ((key_str, val) :: r) t =
          decode_obj r (lua_rawset t (LuaKey.string key_str) (decode_one val))) ∧
      (∀ v, decode_one_key key_str = LuaKey.integer v ↔
        (startsNumeric key_str ∧ l_str2int key_str = some (v, key_str.length))) := by
  refine ⟨?_, ?_, fun v => decode_one_key_integer_iff key_str hne v⟩
  · intro v hv
    rw [decode_obj_cons key_str val r t hne, (decode_one_key_integer_iff key_str hne v).2 hv]
  · intro hv
    rw [decode_obj_cons key_str val r t hne, decode_one_key_string key_str hne hv]

/-- C5 at the keys `"12"` and `"12abc"`: the first is inserted under the integer 12,
the second under its text. -/
theorem C5_key_coercion_witness :
    ascii "12" ≠ [] ∧
      decode_obj [(ascii "12", yyjson_val.null)] [] =
        decode_obj [] (lua_rawset [] (LuaKey.integer 12) (decode_one yyjson_val.null)) ∧
      decode_obj [(ascii "12abc", yyjson_val.null)] [] =
        decode_obj [] (lua_rawset [] (LuaKey.string (ascii "12abc")) (decode_one yyjson_val.null)) :=
  ⟨by decide,
    (C5_key_coercion (ascii "12") yyjson_val.null [] [] (by decide)).1 12 ⟨by decide, by decide⟩,
    (C5_key_coercion (ascii "12abc") yyjson_val.null [] [] (by decide)).2.1 (by
      rintro ⟨v, _, hv⟩
      have h : l_str2int (ascii "12abc") = none := by decide
      rw [h] at hv
      cases hv)⟩

/-- C6. For every 64-bit signed integer `v`, an object with a pair whose key text is
the canonical decimal rendering of `v` decodes to a table that has an entry under
the integer key `v` and none under that text; the object with that pair alone
decodes to the table with the one entry under the integer `v`; and
`{"1": "a", "2": "b"}` decodes to the table with the integer keys 1 and 2. -/
theorem C6_canonical_key_is_integer (v : Int) (h1 : -2 ^ 63 ≤ v) (h2 : v < 2 ^ 63)
    (x : yyjson_val) (kvs : List (List UInt8 × yyjson_val)) (hmem : (renderInt v, x) ∈ kvs) :
    (∃ t, decode_one (.obj kvs) = .table t ∧ (lua_rawget t (LuaKey.integer v)).isSome = true ∧
        lua_rawget t (LuaKey.string (renderInt v)) = none) ∧
      decode_one (.obj [(renderInt v, x)]) = .table [(LuaKey.integer v, decode_one x)] ∧
      decode_one (.obj [(ascii "1", .str (ascii "a")), (ascii "2", .str (ascii "b"))]) =
        .table [(LuaKey.integer 1, .string (ascii "a")), (LuaKey.integer 2, .string (ascii "b"))] := by
  have hkey := decode_one_key_renderInt v h1 h2
  refine ⟨⟨decode_obj kvs [], decode_one_obj kvs, ?_, ?_⟩, ?_, by rfl⟩
  · rw [Option.isSome_iff_ne_none]
    intro hnone
    have := ((decode_obj_rawget_none _ kvs []).1 hnone).2 _ hmem (renderInt_ne_nil v)
    exact this hkey
  · rw [decode_obj_rawget_none]
    refine ⟨rfl, ?_⟩
    intro p _ _ hp
    rcases decode_one_key_cases p.1 with hs | ⟨w, hw⟩
    · rw [hs] at hp
      have hk : p.1 = renderInt v := by injection hp
      rw [hk, hkey] at hs
      cases hs
    · rw [hw] at hp; cases hp
  · rw [decode_one_single _ _ (renderInt_ne_nil v), hkey]

/-- C6 at the integer -12 in an object of two pairs. -/
theorem C6_canonical_key_is_integer_witness :
    (-2 ^ 63 ≤ (-12 : Int) ∧ (-12 : Int) < 2 ^ 63 ∧
      (renderInt (-12), yyjson_val.null) ∈
        [(ascii "x", yyjson_val.bool true), (renderInt (-12), yyjson_val.null)]) ∧
    ((∃ t, decode_one (.obj [(ascii "x", yyjson_val.bool true), (renderInt (-12), yyjson_val.null)])
          = .table t ∧ (lua_rawget t (LuaKey.integer (-12))).isSome = true ∧
        lua_rawget t (LuaKey.string (renderInt (-12))) = none) ∧
      decode_one (.obj [(renderInt (-12), yyjson_val.null)]) =
        .table [(LuaKey.integer (-12), decode_one yyjson_val.null)] ∧
      decode_one (.obj [(ascii "1", .str (ascii "a")), (ascii "2", .str (ascii "b"))]) =
        .table [(LuaKey.integer 1, .string (ascii "a")), (LuaKey.integer 2, .string (ascii "b"))]) :=
  ⟨⟨by decide, by decide, by simp⟩,
    C6_canonical_key_is_integer (-12) (by decide) (by decide) yyjson_val.null
      [(ascii "x", yyjson_val.bool true), (renderInt (-12), yyjson_val.null)] (by simp)⟩

/-- C7. An object key whose first byte is `'-'` or a digit and that has a byte that
is not a digit after its first byte is pushed as the text key with the original
bytes: the key pushed is never an integer, whatever the length of the key, and the
pair is inserted under the key text. -/
theorem C7_partial_numeric_key_stays_text (c x : UInt8) (rest : List UInt8)
    (val : yyjson_val) (r : List (List UInt8 × yyjson_val)) (t : List (LuaKey × LuaValue))
    (hc : c = 45 ∨ lisdigit c = true) (hx : x ∈ rest) (hnd : lisdigit x = false) :
    startsNumeric (c :: rest) ∧
      decode_one_key (c :: rest) = LuaKey.string (c :: rest) ∧
      (∀ v, decode_one_key (c :: rest) ≠ LuaKey.integer v) ∧
      decode_obj ((c :: rest, val) :: r) t =
        decode_obj r (lua_rawset t (LuaKey.string (c :: rest)) (decode_one val)) ∧
      decode_one (.obj [(c :: rest, val)]) =
        .table [(LuaKey.string (c :: rest), decode_one val)] := by
  have hne : c :: rest ≠ [] := by simp
  have hno : ∀ v, decode_one_key (c :: rest) ≠ LuaKey.integer v := by
    intro v hv
    have hp := ((decode_one_key_integer_iff _ hne v).1 hv).2
    obtain ⟨_, sign, ds, e1, e2, _, e4, _⟩ := l_str2int_full _ v hp
    have hxd : x ∈ ds := by
      rcases e2 with h | h | h
      · subst h
        simp only [List.nil_append] at e1
        rw [← e1]; exact List.mem_cons_of_mem _ hx
      · subst h
        have : rest = ds := (List.cons.inj e1).2
        rw [← this]; exact hx
      · subst h
        have : rest = ds := (List.cons.inj e1).2
        rw [← this]; exact hx
    rw [e4 x hxd] at hnd
    cases hnd
  have hstr : decode_one_key (c :: rest) = LuaKey.string (c :: rest) := by
    rcases decode_one_key_cases (c :: rest) with h | ⟨v, hv⟩
    · exact h
    · exact absurd hv (hno v)
  refine ⟨⟨c, rfl, hc⟩, hstr, hno, ?_, ?_⟩
  · rw [decode_obj_cons _ val r t hne, hstr]
  · rw [decode_one_single _ _ hne, hstr]

/-- C7 at the key `"12abc"`. -/
theorem C7_partial_numeric_key_stays_text_witness :
    ((49 : UInt8) = 45 ∨ lisdigit 49 = true) ∧ (97 : UInt8) ∈ ascii "2abc" ∧
      lisdigit 97 = false ∧
      decode_one (.obj [(49 :: ascii "2abc", yyjson_val.str (ascii "x"))]) =
        .table [(LuaKey.string (49 :: ascii "2abc"), decode_one (yyjson_val.str (ascii "x")))] :=
  ⟨by decide, by decide, by decide,
    (C7_partial_numeric_key_stays_text 49 97 (ascii "2abc") (yyjson_val.str (ascii "x")) [] []
      (by decide) (by decide) (by decide)).2.2.2.2⟩

/-- C8, at the failing input. The key of 2147483648 digits `'0'` followed by the
digit `'1'` is a digit sequence with leading zeros of value 1, and `decode_one`
inserts the pair under the key text instead of the integer 1: `l_str2int` rejects
the key because `(int)len` is negative. -/
theorem C8_long_zero_padded_key_stays_text :
    allDigits (List.replicate 2147483648 48 ++ [49]) ∧
      decval (List.replicate 2147483648 48 ++ [49]) = 1 ∧
      l_str2int (List.replicate 2147483648 48 ++ [49]) = none ∧
      decode_one (.obj [(List.replicate 2147483648 48 ++ [49], yyjson_val.null)]) =
        .table [(LuaKey.string (List.replicate 2147483648 48 ++ [49]), LuaValue.lightuserdata 0)] := by
  have hne : List.replicate 2147483648 (48 : UInt8) ++ [49] ≠ [] := by
    intro h
    have := congrArg List.length h
    rw [List.length_append, List.length_replicate] at this
    simp at this
  have hnone : l_str2int (List.replicate 2147483648 48 ++ [49]) = none := by
    apply l_str2int_none_of_castInt_le
    rw [List.length_append, List.length_replicate]
    have h1 : castInt (2147483648 + [(49 : UInt8)].length) ≤ 0 := by decide
    have h2 : (0 : Int) ≤ ((isneg (List.replicate 2147483648 48 ++ [49]) 0).2 : Int) :=
      Int.ofNat_nonneg _
    omega
  refine ⟨?_, ?_, hnone, ?_⟩
  · intro c hc
    rcases List.mem_append.1 hc with h | h
    · exact allDigits_replicate 2147483648 48 (by decide) c h
    · rw [List.mem_singleton.1 h]; decide
  · rw [decval_zeros_then]; decide
  · rw [decode_one_single _ _ hne]
    have hkey : decode_one_key (List.replicate 2147483648 48 ++ [49]) =
        LuaKey.string (List.replicate 2147483648 48 ++ [49]) := by
      apply decode_one_key_string _ hne
      rintro ⟨v, _, hv⟩
      rw [hnone] at hv
      cases hv
    rw [hkey]
    rfl

/-- On keys shorter than `2 ^ 31` bytes: a key made of an optional `'-'` and one or
more digits, leading zeros included, whose value is in the signed 64-bit range is
pushed as the integer of that value. -/
theorem decode_one_key_literal (sign ds : List UInt8) (hsign : sign = [] ∨ sign = [45])
    (hne : ds ≠ []) (hd : allDigits ds) (hlen : (sign ++ ds).length < 2 ^ 31)
    (hv : decval ds ≤ litBound sign) :
    decode_one_key (sign ++ ds) = LuaKey.integer (litVal sign ds) := by
  have hk : sign ++ ds ≠ [] := by simp [hne]
  rw [decode_one_key_integer_iff _ hk]
  constructor
  · rcases hsign with h | h
    · subst h
      cases ds with
      | nil => exact absurd rfl hne
      | cons c cs => exact ⟨c, rfl, Or.inr ((allDigits_cons c cs).1 hd).1⟩
    · subst h
      exact ⟨45, rfl, Or.inl rfl⟩
  · have hs : sign = [] ∨ sign = [43] ∨ sign = [45] := by
      rcases hsign with h | h
      · exact Or.inl h
      · exact Or.inr (Or.inr h)
    rw [l_str2int_literal sign ds hs hne hd hlen, if_pos hv]

/-- C9, refuted at the key `"+1"`: the whole key matches the integer parser with
the value 1, and `decode_one` inserts the pair under the text `"+1"`, not under
the integer 1. -/
theorem C9_plus_key_counterexample :
    l_str2int (ascii "+1") = some (1, (ascii "+1").length) ∧
      decode_one_key (ascii "+1") ≠ LuaKey.integer 1 ∧
      decode_one (.obj [(ascii "+1", yyjson_val.null)]) =
        .table [(LuaKey.string (ascii "+1"), LuaValue.lightuserdata 0)] :=
  ⟨by decide, by decide, by rfl⟩

/-- C9, amended. An object key that begins with `'+'` is pushed as the text key with
the original bytes, whatever follows the `'+'`: the coercion is attempted only for
keys whose first byte is `'-'` or a decimal digit. -/
theorem C9_plus_key_stays_text (rest : List UInt8) (val : yyjson_val)
    (r : List (List UInt8 × yyjson_val)) (t : List (LuaKey × LuaValue)) :
    decode_one_key (43 :: rest) = LuaKey.string (43 :: rest) ∧
      decode_obj ((43 :: rest, val) :: r) t =
        decode_obj r (lua_rawset t (LuaKey.string (43 :: rest)) (decode_one val)) ∧
      decode_one (.obj [(43 :: rest, val)]) =
        .table [(LuaKey.string (43 :: rest), decode_one val)] := by
  have hne : (43 : UInt8) :: rest ≠ [] := by simp
  have hstr : decode_one_key (43 :: rest) = LuaKey.string (43 :: rest) := by
    apply decode_one_key_string _ hne
    rintro ⟨v, ⟨c, hc, hc2⟩, _⟩
    have : c = 43 := by
      simp only [List.head?_cons, Option.some.injEq] at hc
      exact hc.symm
    subst this
    revert hc2
    decide
  refine ⟨hstr, ?_, ?_⟩
  · rw [decode_obj_cons _ val r t hne, hstr]
  · rw [decode_one_single _ _ hne, hstr]

theorem renderInt_one : renderInt 1 = ascii "1" := by
  simp [renderInt, renderNat, ascii]

/-- C10, refuted at the key `"01"`: it is pushed as the integer 1, whose canonical
rendering `"1"` is not the key text. -/
theorem C10_lossless_counterexample :
    decode_one_key (ascii "01") = LuaKey.integer 1 ∧ renderInt 1 = ascii "1" ∧
      renderInt 1 ≠ ascii "01" := by
  refine ⟨by decide, renderInt_one, ?_⟩
  rw [renderInt_one]
  decide

/-- C10, amended. When `decode_one` pushes the integer `v` for a key, the key text
is an optional `'-'` followed by one or more decimal digits whose signed value is
exactly `v`, a 64-bit signed integer, and the canonical rendering of `v` is pushed
as the same integer. The rendering reproduces the key text exactly when the text
is in canonical form: no zero in front of another digit, and no `'-'` before a
zero. -/
theorem C10_integer_key_text (k : List UInt8) (v : Int)
    (h : decode_one_key k = LuaKey.integer v) :
    (-2 ^ 63 ≤ v ∧ v < 2 ^ 63) ∧
      (∃ sign ds, k = sign ++ ds ∧ (sign = [] ∨ sign = [45]) ∧ ds ≠ [] ∧ allDigits ds ∧
        v = litVal sign ds) ∧
      decode_one_key (renderInt v) = LuaKey.integer v ∧
      (renderInt v = k ↔ canonicalText k) := by
  have hk : k ≠ [] := by
    intro h0; subst h0
    have h1 : decode_one_key [] = LuaKey.string [] := by decide
    rw [h1] at h
    cases h
  obtain ⟨hst, hp⟩ := (decode_one_key_integer_iff k hk v).1 h
  obtain ⟨_, sign, ds, e1, e2, e3, e4, e5, e6, _⟩ := l_str2int_full k v hp
  have hsign : sign = [] ∨ sign = [45] := by
    rcases e2 with h1 | h1 | h1
    · exact Or.inl h1
    · exfalso
      obtain ⟨c, hc, hc2⟩ := hst
      rw [e1, h1] at hc
      have : c = 43 := by
        simp only [List.singleton_append, List.head?_cons, Option.some.injEq] at hc
        exact hc.symm
      subst this
      revert hc2
      decide
    · exact Or.inr h1
  have hrange : -2 ^ 63 ≤ v ∧ v < 2 ^ 63 := by
    rw [e6]
    unfold litVal
    unfold litBound at e5
    rw [LUA_MAXINTEGER_eq] at e5
    rcases hsign with h1 | h1
    · subst h1
      simp only [List.nil_eq, List.cons_ne_self, if_false, Nat.add_zero, reduceCtorEq] at e5 ⊢
      omega
    · subst h1
      simp only [if_true] at e5 ⊢
      omega
  refine ⟨hrange, ⟨sign, ds, e1, hsign, e3, e4, e6⟩,
    decode_one_key_renderInt v hrange.1 hrange.2, ?_⟩
  constructor
  · intro hr
    rw [← hr]
    exact canonicalText_renderInt v
  · intro hcan
    rw [e6, e1]
    rw [e1] at hcan
    exact renderInt_litVal sign ds hsign e3 e4 hcan

/-- C10 (amended) at the key `"01"`, pushed as the integer 1. -/
theorem C10_integer_key_text_witness :
    decode_one_key (ascii "01") = LuaKey.integer 1 ∧
      ((-2 ^ 63 ≤ (1 : Int) ∧ (1 : Int) < 2 ^ 63) ∧
      (∃ sign ds, ascii "01" = sign ++ ds ∧ (sign = [] ∨ sign = [45]) ∧ ds ≠ [] ∧
        allDigits ds ∧ (1 : Int) = litVal sign ds) ∧
      decode_one_key (renderInt 1) = LuaKey.integer 1 ∧
      (renderInt 1 = ascii "01" ↔ canonicalText (ascii "01"))) :=
  ⟨by decide, C10_integer_key_text (ascii "01") 1 (by decide)⟩

/-! ## The decoder on the Lua stack: lemmas -/

theorem LuaKey.key_slot (k : LuaKey) : k.slot.key? = some k := by
  cases k <;> rfl

mutual
theorem decode_one_L_ok (M : Nat) : ∀ (v : yyjson_val) (st : List LuaValue),
    st.length + stackNeed v ≤ M → decode_one_L M v st = .ok (decode_one v :: st)
  | .null, st, _ => by simp [decode_one_L, decode_one]
  | .bool b, st, _ => by simp [decode_one_L, decode_one]
  | .uint u, st, _ => by simp [decode_one_L, decode_one]
  | .sint i, st, _ => by simp [decode_one_L, decode_one]
  | .real bits, st, _ => by simp [decode_one_L, decode_one]
  | .str s, st, _ => by simp [decode_one_L, decode_one]
  | .arr vs, st, h => by
    simp only [stackNeed] at h
    have hc : luaL_checkstack M st 6 = true := by
      simp only [luaL_checkstack, decide_eq_true_eq]; omega
    simp only [decode_one_L, hc, if_true, decode_one]
    exact decode_arr_L_ok M vs 1 [] st (by simp only [List.length_cons]; omega)
  | .obj kvs, st, h => by
    simp only [stackNeed] at h
    have hc : luaL_checkstack M st 6 = true := by
      simp only [luaL_checkstack, decide_eq_true_eq]; omega
    simp only [decode_one_L, hc, if_true, decode_one]
    exact decode_obj_L_ok M kvs [] st (by simp only [List.length_cons]; omega)
theorem decode_arr_L_ok (M : Nat) : ∀ (vs : List yyjson_val) (pos : Int)
    (t : List (LuaKey × LuaValue)) (st : List LuaValue),
    (LuaValue.table t :: st).length + stackNeedArr vs ≤ M →
      decode_arr_L M vs pos (.table t :: st) = .ok (.table (decode_arr vs pos t) :: st)
  | [], pos, t, st, _ => by simp [decode_arr_L, decode_arr]
  | v :: vs, pos, t, st, h => by
    simp only [stackNeedArr, List.length_cons] at h
    have h1 := decode_one_L_ok M v (.table t :: st) (by simp only [List.length_cons]; omega)
    simp only [decode_arr_L, h1, lua_rawseti_L, decode_arr]
    exact decode_arr_L_ok M vs (pos + 1) _ st (by simp only [List.length_cons]; omega)
theorem decode_obj_L_ok (M : Nat) : ∀ (kvs : List (List UInt8 × yyjson_val))
    (t : List (LuaKey × LuaValue)) (st : List LuaValue),
    (LuaValue.table t :: st).length + 1 + stackNeedObj kvs ≤ M →
      decode_obj_L M kvs (.table t :: st) = .ok (.table (decode_obj kvs t) :: st)
  | [], t, st, _ => by simp [decode_obj_L, decode_obj]
  | (k, x) :: r, t, st, h => by
    by_cases hk : k.length > 0
    · simp only [stackNeedObj, hk, if_true, List.length_cons] at h
      have h1 := decode_one_L_ok M x ((decode_one_key k).slot :: .table t :: st)
        (by simp only [List.length_cons]; omega)
      simp only [decode_obj_L, hk, if_true, h1, lua_rawset_L, LuaKey.key_slot, decode_obj]
      exact decode_obj_L_ok M r _ st (by simp only [List.length_cons]; omega)
    · simp only [stackNeedObj, hk, if_false, List.length_cons] at h
      simp only [decode_obj_L, hk, if_false, decode_obj]
      exact decode_obj_L_ok M r t st (by simp only [List.length_cons]; omega)
end

mutual
theorem decode_one_L_err (M : Nat) : ∀ (v : yyjson_val) (st : List LuaValue),
    st.length ≤ M → M < st.length + stackNeed v → isStackOverflow (decode_one_L M v st)
  | .null, st, h0, h => by simp only [stackNeed] at h; omega
  | .bool b, st, h0, h => by simp only [stackNeed] at h; omega
  | .uint u, st, h0, h => by simp only [stackNeed] at h; omega
  | .sint i, st, h0, h => by simp only [stackNeed] at h; omega
  | .real bits, st, h0, h => by simp only [stackNeed] at h; omega
  | .str s, st, h0, h => by simp only [stackNeed] at h; omega
  | .arr vs, st, _, h => by
    simp only [stackNeed] at h
    by_cases hc : luaL_checkstack M st 6 = true
    · simp only [decode_one_L, hc, if_true]
      simp only [luaL_checkstack, decide_eq_true_eq] at hc
      exact decode_arr_L_err M vs 1 [] st (by simp only [List.length_cons]; omega)
        (by simp only [List.length_cons]; omega)
    · simp only [decode_one_L, hc]
      exact Or.inl rfl
  | .obj kvs, st, _, h => by
    simp only [stackNeed] at h
    by_cases hc : luaL_checkstack M st 6 = true
    · simp only [decode_one_L, hc, if_true]
      simp only [luaL_checkstack, decide_eq_true_eq] at hc
      exact decode_obj_L_err M kvs [] st (by simp only [List.length_cons]; omega)
        (by simp only [List.length_cons]; omega)
    · simp only [decode_one_L, hc]
      exact Or.inr rfl
theorem decode_arr_L_err (M : Nat) : ∀ (vs : List yyjson_val) (pos : Int)
    (t : List (LuaKey × LuaValue)) (st : List LuaValue),
    (LuaValue.table t :: st).length ≤ M →
    M < (LuaValue.table t :: st).length + stackNeedArr vs →
      isStackOverflow (decode_arr_L M vs pos (.table t :: st))
  | [], pos, t, st, h0, h => by simp only [stackNeedArr] at h; omega
  | v :: vs, pos, t, st, h0, h => by
    simp only [stackNeedArr] at h
    by_cases hv : M < (LuaValue.table t :: st).length + stackNeed v
    · have h1 := decode_one_L_err M v (.table t :: st) h0 hv
      rcases h1 with h1 | h1
      · simp only [decode_arr_L, h1]; exact Or.inl rfl
      · simp only [decode_arr_L, h1]; exact Or.inr rfl
    · have h1 := decode_one_L_ok M v (.table t :: st) (by omega)
      simp only [decode_arr_L, h1, lua_rawseti_L]
      simp only [List.length_cons] at hv h h0
      exact decode_arr_L_err M vs (pos + 1) _ st (by simp only [List.length_cons]; omega)
        (by simp only [List.length_cons]; omega)
theorem decode_obj_L_err (M : Nat) : ∀ (kvs : List (List UInt8 × yyjson_val))
    (t : List (LuaKey × LuaValue)) (st : List LuaValue),
    (LuaValue.table t :: st).length + 1 ≤ M →
    M < (LuaValue.table t :: st).length + 1 + stackNeedObj kvs →
      isStackOverflow (decode_obj_L M kvs (.table t :: st))
  | [], t, st, h0, h => by simp only [stackNeedObj] at h; omega
  | (k, x) :: r, t, st, h0, h => by
    by_cases hk : k.length > 0
    · simp only [stackNeedObj, hk, if_true] at h
      by_cases hv : M < ((decode_one_key k).slot :: LuaValue.table t :: st).length + stackNeed x
      · have h1 := decode_one_L_err M x _ (by simp only [List.length_cons] at h0 ⊢; omega) hv
        rcases h1 with h1 | h1
        · simp only [decode_obj_L, hk, if_true, h1]; exact Or.inl rfl
        · simp only [decode_obj_L, hk, if_true, h1]; exact Or.inr rfl
      · have h1 := decode_one_L_ok M x ((decode_one_key k).slot :: .table t :: st) (by omega)
        simp only [decode_obj_L, hk, if_true, h1, lua_rawset_L, LuaKey.key_slot]
        simp only [List.length_cons] at hv h h0
        exact decode_obj_L_err M r _ st (by simp only [List.length_cons]; omega)
          (by simp only [List.length_cons]; omega)
    · simp only [stackNeedObj, hk, if_false] at h
      simp only [decode_obj_L, hk, if_false]
      exact decode_obj_L_err M r t st h0 h
end

/-! ## Lemmas on the entry point -/

theorem lua_json_decode_null (rd : List UInt8 → Nat → Except yyjson_read_err yyjson_val)
    (M : Nat) (len : Int) : lua_json_decode rd M (.pointer none (some len)) = .returns0 := by
  simp [lua_json_decode, DecodeArgs.buffer]

theorem lua_json_decode_of_buffer (rd : List UInt8 → Nat → Except yyjson_read_err yyjson_val)
    (M : Nat) (args : DecodeArgs) (str : List UInt8) (len : Nat)
    (hb : args.buffer = some (some str, len)) :
    lua_json_decode rd M args =
      if str.getD 0 0 = 0 then .returns0
      else
        match rd str len with
        | .error err => .decode_error err.msg (castInt err.code) (castInt err.pos)
        | .ok root =>
          match decode_one_L M root [args.slot] with
          | .error e => .lua_error e
          | .ok (v :: _) => .returns1 v
          | .ok [] => .lua_error .api_misuse := by
  unfold lua_json_decode
  rw [hb]

theorem lua_json_decode_nul (rd : List UInt8 → Nat → Except yyjson_read_err yyjson_val)
    (M : Nat) (args : DecodeArgs) (str : List UInt8) (len : Nat)
    (hb : args.buffer = some (some str, len)) (h0 : str.getD 0 0 = 0) :
    lua_json_decode rd M args = .returns0 := by
  rw [lua_json_decode_of_buffer rd M args str len hb, if_pos h0]

theorem lua_json_decode_read (rd : List UInt8 → Nat → Except yyjson_read_err yyjson_val)
    (M : Nat) (args : DecodeArgs) (str : List UInt8) (len : Nat)
    (hb : args.buffer = some (some str, len)) (h0 : str.getD 0 0 ≠ 0) :
    lua_json_decode rd M args =
      match rd str len with
      | .error err => .decode_error err.msg (castInt err.code) (castInt err.pos)
      | .ok root =>
        match decode_one_L M root [args.slot] with
        | .error e => .lua_error e
        | .ok (v :: _) => .returns1 v
        | .ok [] => .lua_error .api_misuse := by
  rw [lua_json_decode_of_buffer rd M args str len hb, if_neg h0]

/-! ## The claims on objects, arrays, numbers and the entry point -/

theorem mem_keys_rawset (t : List (LuaKey × LuaValue)) (k K : LuaKey) (v : LuaValue) :
    K ∈ (lua_rawset t k v).map Prod.fst ↔ K = k ∨ K ∈ t.map Prod.fst := by
  induction t with
  | nil => simp [lua_rawset]
  | cons e r ih =>
    unfold lua_rawset
    by_cases h : e.1 = k
    · rw [if_pos h]
      simp only [List.map_cons, List.mem_cons, h]
      tauto
    · rw [if_neg h]
      simp only [List.map_cons, List.mem_cons, ih]
      tauto

theorem mem_keys_decode_obj (K : LuaKey) (kvs : List (List UInt8 × yyjson_val)) :
    ∀ t : List (LuaKey × LuaValue),
      K ∈ (decode_obj kvs t).map Prod.fst ↔
        K ∈ t.map Prod.fst ∨ ∃ p ∈ kvs, p.1 ≠ [] ∧ decode_one_key p.1 = K := by
  induction kvs with
  | nil => intro t; simp [decode_obj_nil]
  | cons p r ih =>
    intro t
    obtain ⟨k, x⟩ := p
    by_cases hk : k = []
    · subst hk
      rw [decode_obj_cons_empty, ih]
      simp
    · rw [decode_obj_cons k x r t hk, ih, mem_keys_rawset]
      constructor
      · rintro ((h | h) | ⟨p, hp, h1, h2⟩)
        · exact Or.inr ⟨(k, x), List.mem_cons_self _ _, hk, h.symm⟩
        · exact Or.inl h
        · exact Or.inr ⟨p, List.mem_cons_of_mem _ hp, h1, h2⟩
      · rintro (h | ⟨p, hp, h1, h2⟩)
        · exact Or.inl (Or.inr h)
        · rcases List.mem_cons.1 hp with h | h
          · subst h; exact Or.inl (Or.inl h2.symm)
          · exact Or.inr ⟨p, h, h1, h2⟩

theorem decode_obj_filter (kvs : List (List UInt8 × yyjson_val)) :
    ∀ t : List (LuaKey × LuaValue),
      decode_obj (kvs.filter hasKeyText) t = decode_obj kvs t := by
  induction kvs with
  | nil => intro t; rfl
  | cons p r ih =>
    intro t
    obtain ⟨k, x⟩ := p
    by_cases hk : k = []
    · subst hk
      rw [decode_obj_cons_empty]
      simp only [List.filter, hasKeyText, ne_eq, not_true_eq_false, decide_False]
      exact ih t
    · have hf : hasKeyText (k, x) = true := by simp [hasKeyText, hk]
      rw [List.filter_cons_of_pos hf, decode_obj_cons k x r t hk, decode_obj_cons k x _ t hk]
      exact ih _

theorem decode_obj_L_cons_empty (M : Nat) (x : yyjson_val) (r : List (List UInt8 × yyjson_val))
    (st : List LuaValue) : decode_obj_L M (([], x) :: r) st = decode_obj_L M r st := by
  simp [decode_obj_L]

theorem decode_one_key_ne_empty (k : List UInt8) (hk : k ≠ []) :
    decode_one_key k ≠ LuaKey.string [] := by
  rcases decode_one_key_cases k with h | ⟨v, h⟩
  · rw [h]; intro h2; injection h2 with h3; exact hk h3
  · rw [h]; intro h2; cases h2

/-- C11. The table decoded from an object node has as its keys exactly the decoded
keys of the pairs with non-empty key text: every such pair is inserted, a pair
with zero-length key text contributes nothing (the empty text is no key, and the
table is the one decoded from the object without those pairs), and on the Lua
stack the loop steps over such a pair without any call that could raise. -/
theorem C11_object_key_set (kvs : List (List UInt8 × yyjson_val)) :
    decode_one (.obj kvs) = .table (decode_obj kvs []) ∧
      (∀ K, K ∈ (decode_obj kvs []).map Prod.fst ↔
        ∃ p ∈ kvs, p.1 ≠ [] ∧ decode_one_key p.1 = K) ∧
      LuaKey.string [] ∉ (decode_obj kvs []).map Prod.fst ∧
      decode_one (.obj kvs) = decode_one (.obj (kvs.filter hasKeyText)) ∧
      (∀ M x r st, decode_obj_L M (([], x) :: r) st = decode_obj_L M r st) := by
  refine ⟨decode_one_obj kvs, ?_, ?_, ?_, decode_obj_L_cons_empty⟩
  · intro K
    rw [mem_keys_decode_obj]
    simp
  · rw [mem_keys_decode_obj]
    rintro (h | ⟨p, _, h1, h2⟩)
    · simp at h
    · exact decode_one_key_ne_empty p.1 h1 h2
  · rw [decode_one_obj, decode_one_obj, decode_obj_filter]

theorem lua_rawset_fresh (t : List (LuaKey × LuaValue)) (k : LuaKey) (v : LuaValue)
    (h : ∀ e ∈ t, e.1 ≠ k) : lua_rawset t k v = t ++ [(k, v)] := by
  induction t with
  | nil => rfl
  | cons e r ih =>
    unfold lua_rawset
    rw [if_neg (h e (List.mem_cons_self _ _))]
    rw [ih (fun e2 he2 => h e2 (List.mem_cons_of_mem _ he2))]
    rfl

/-- The array loop appends the decoded children under consecutive positions, when
the table holds no key from `pos` on. -/
theorem decode_arr_eq (vs : List yyjson_val) :
    ∀ (pos : Int) (t : List (LuaKey × LuaValue)),
      (∀ e ∈ t, ∀ j : Int, pos ≤ j → e.1 ≠ LuaKey.integer j) →
        decode_arr vs pos t = t ++ seqFrom pos (vs.map decode_one) := by
  induction vs with
  | nil => intro pos t _; simp [decode_arr, seqFrom]
  | cons v r ih =>
    intro pos t h
    have hfresh : ∀ e ∈ t, e.1 ≠ LuaKey.integer pos := fun e he => h e he pos (le_refl _)
    simp only [decode_arr, List.map_cons, seqFrom]
    rw [lua_rawset_fresh t _ _ hfresh, ih (pos + 1)]
    · simp
    · intro e he j hj
      rcases List.mem_append.1 he with h1 | h1
      · exact h e h1 j (by omega)
      · have : e = (LuaKey.integer pos, decode_one v) := by simpa using h1
        rw [this]
        intro h2
        injection h2 with h3
        omega

theorem seqFrom_length (xs : List LuaValue) : ∀ pos : Int, (seqFrom pos xs).length = xs.length := by
  induction xs with
  | nil => intro pos; rfl
  | cons x r ih => intro pos; simp [seqFrom, ih]

theorem seqFrom_rawget (xs : List LuaValue) :
    ∀ (pos : Int) (i : Nat) (h : i < xs.length),
      lua_rawget (seqFrom pos xs) (LuaKey.integer (pos + i)) = some (xs.get ⟨i, h⟩) := by
  induction xs with
  | nil => intro pos i h; simp at h
  | cons x r ih =>
    intro pos i h
    cases i with
    | zero => simp [seqFrom, lua_rawget]
    | succ i =>
      have hne : ¬ LuaKey.integer pos = LuaKey.integer (pos + ((i + 1 : Nat) : Int)) := by
        intro h2; injection h2 with h3; omega
      simp only [seqFrom, lua_rawget, hne, if_false]
      have h4 := ih (pos + 1) i (by simpa using h)
      have h5 : pos + 1 + (i : Int) = pos + ((i + 1 : Nat) : Int) := by push_cast; ring
      rw [h5] at h4
      rw [h4]
      rfl

/-- C12. An array node with `n` children decodes to the table of an ordered
sequence of exactly `n` elements: the element at position `i + 1` is the decoding
of child `i`, for every `i < n`, a null child being the null value in its
position. The array `[1, 2.5, "s", true, null, {}]` decodes to six elements: an
integer, a float, a text, a boolean, the null value and an empty table. -/
theorem C12_array_sequence (vs : List yyjson_val) :
    decode_one (.arr vs) = .table (seqFrom 1 (vs.map decode_one)) ∧
      (seqFrom 1 (vs.map decode_one)).length = vs.length ∧
      (∀ (i : Nat) (h : i < vs.length),
        lua_rawget (seqFrom 1 (vs.map decode_one)) (LuaKey.integer ((i : Int) + 1)) =
          some (decode_one (vs.get ⟨i, h⟩))) ∧
      decode_one yyjson_val.null = LuaValue.lightuserdata 0 ∧
      decode_one (.arr [.uint 1, .real 0x4004000000000000, .str (ascii "s"), .bool true,
          .null, .obj []]) =
        .table [(LuaKey.integer 1, .integer 1), (LuaKey.integer 2, .number 0x4004000000000000),
          (LuaKey.integer 3, .string (ascii "s")), (LuaKey.integer 4, .boolean true),
          (LuaKey.integer 5, .lightuserdata 0), (LuaKey.integer 6, .table [])] := by
  refine ⟨?_, ?_, ?_, by rfl, by rfl⟩
  · have h := decode_arr_eq vs 1 [] (by simp)
    simp only [List.nil_append] at h
    simp only [decode_one, h]
  · rw [seqFrom_length, List.length_map]
  · intro i h
    have h1 := seqFrom_rawget (vs.map decode_one) 1 i (by simpa using h)
    rw [Int.add_comm] at h1
    rw [h1]
    simp

/-- C13. A number node decodes to an integer for the unsigned and the signed
subtype and to a float for the real subtype: a signed payload `s` gives `s`, an
unsigned payload `u` gives `u` up to `2 ^ 63 - 1` and `u - 2 ^ 64` from `2 ^ 63`
on, and a real payload gives the float of the same bits. -/
theorem C13_number_subtypes (u : Nat) (s : Int) (bits : Nat) (hu : u < 2 ^ 64) :
    decode_one (.uint u) = .integer (if u ≤ 2 ^ 63 - 1 then (u : Int) else (u : Int) - 2 ^ 64) ∧
      decode_one (.sint s) = .integer s ∧
      decode_one (.real bits) = .number bits := by
  refine ⟨?_, by simp [decode_one], by simp [decode_one]⟩
  simp only [decode_one, castInt64, Nat.mod_eq_of_lt hu]
  have h63 : (2 : Nat) ^ 63 = 9223372036854775808 := by norm_num
  by_cases h : u < 2 ^ 63
  · rw [if_pos h, if_pos (by omega)]
  · rw [if_neg h, if_neg (by omega)]

/-- C13 at the largest unsigned payload, which decodes to -1, with the signed
payload -5 and the float 2.5. -/
theorem C13_number_subtypes_witness :
    (18446744073709551615 : Nat) < 2 ^ 64 ∧
      decode_one (.uint 18446744073709551615) = .integer (-1) ∧
      decode_one (.sint (-5)) = .integer (-5) ∧
      decode_one (.real 0x4004000000000000) = .number 0x4004000000000000 := by
  have h := C13_number_subtypes 18446744073709551615 (-5) 0x4004000000000000 (by norm_num)
  refine ⟨by norm_num, ?_, h.2.1, h.2.2⟩
  rw [h.1]
  rfl

/-- C14, refuted in the pointer form at the buffer `{}` with the explicit length 0:
the first byte is not zero, so the Reader is consulted with the length 0. With a
Reader that rejects the length 0 the call raises the decode error, and with one
that accepts it the call returns a value; it never returns no value. -/
theorem C14_zero_length_counterexample :
    lua_json_decode (fun _ len => if len = 0 then .error ⟨1, ascii "input length is 0", 0⟩
        else .ok (.obj [])) 20 (.pointer (some (ascii "\x7b\x7d")) (some 0)) =
      .decode_error (ascii "input length is 0") 1 0 ∧
    lua_json_decode (fun _ _ => .ok (.obj [])) 20 (.pointer (some (ascii "\x7b\x7d")) (some 0)) =
      .returns1 (.table []) :=
  ⟨by rfl, by rfl⟩

/-- C14, amended. A call returns no result and raises no error when its input is
the empty string, when it is the null pointer with an explicit length, and when it
is a pointer with the explicit length 0 to a buffer whose first byte is zero. -/
theorem C14_empty_input (rd : List UInt8 → Nat → Except yyjson_read_err yyjson_val)
    (M : Nat) (mem : List UInt8) (len : Int) :
    lua_json_decode rd M (.string []) = .returns0 ∧
      lua_json_decode rd M (.pointer none (some len)) = .returns0 ∧
      lua_json_decode rd M (.pointer (some (0 :: mem)) (some 0)) = .returns0 :=
  ⟨lua_json_decode_nul rd M _ [0] 0 rfl rfl, lua_json_decode_null rd M len,
    lua_json_decode_nul rd M _ (0 :: mem) 0 rfl rfl⟩

/-- C15, refuted at the string of the one byte zero, a non-empty input: the Reader
given here rejects it, and the call raises no error and returns no result. -/
theorem C15_nul_input_counterexample :
    ([0] : List UInt8) ≠ [] ∧
      lua_json_decode (fun _ _ => .error ⟨6, ascii "unexpected character", 0⟩) 20
        (.string [0]) = .returns0 :=
  ⟨by decide, by rfl⟩

/-- C15, amended. For an input whose first byte is not zero: when the Reader fails,
the call raises the decode error with the message of the Reader and with its code
and byte position converted to `int`, which leaves them unchanged below `2 ^ 31`;
when the Reader succeeds with the root `r` and the Lua stack has room for the
nesting of `r`, the call returns exactly one value, the decoding of `r`. -/
theorem C15_reader_outcome (rd : List UInt8 → Nat → Except yyjson_read_err yyjson_val)
    (M : Nat) (args : DecodeArgs) (str : List UInt8) (len : Nat)
    (hb : args.buffer = some (some str, len)) (h0 : str.getD 0 0 ≠ 0) :
    (∀ err, rd str len = .error err →
        lua_json_decode rd M args = .decode_error err.msg (castInt err.code) (castInt err.pos) ∧
        (err.code < 2 ^ 31 → err.pos < 2 ^ 31 →
          lua_json_decode rd M args = .decode_error err.msg err.code err.pos)) ∧
      (∀ r, rd str len = .ok r → 1 + stackNeed r ≤ M →
        lua_json_decode rd M args = .returns1 (decode_one r)) := by
  have hread := lua_json_decode_read rd M args str len hb h0
  constructor
  · intro err herr
    rw [herr] at hread
    simp only [] at hread
    refine ⟨hread, fun h1 h2 => ?_⟩
    rw [hread, castInt_of_lt _ h1, castInt_of_lt _ h2]
  · intro r hr hM
    rw [hr] at hread
    have hok := decode_one_L_ok M r [args.slot] (by simp only [List.length_singleton]; omega)
    simp only [hok] at hread
    exact hread

/-- C15 (amended) at the string `{`, which the Reader given here rejects at
position 1, and at the string `{}`, which the Reader given here reads as the empty
object. -/
theorem C15_reader_outcome_witness :
    ((DecodeArgs.string (ascii "\x7b")).buffer = some (some (ascii "\x7b" ++ [0]), 1) ∧
      (ascii "\x7b" ++ [0]).getD 0 0 ≠ 0) ∧
    lua_json_decode (fun _ _ => .error ⟨5, ascii "unexpected end of data", 1⟩) 20
        (.string (ascii "\x7b")) = .decode_error (ascii "unexpected end of data") 5 1 ∧
      lua_json_decode (fun _ _ => .ok (.obj [])) 20 (.string (ascii "\x7b\x7d")) =
        .returns1 (decode_one (.obj [])) :=
  ⟨⟨rfl, by decide⟩,
    ((C15_reader_outcome (fun _ _ => .error ⟨5, ascii "unexpected end of data", 1⟩) 20
      (.string (ascii "\x7b")) (ascii "\x7b" ++ [0]) 1 rfl (by decide)).1
        ⟨5, ascii "unexpected end of data", 1⟩ rfl).2 (by norm_num) (by norm_num),
    (C15_reader_outcome (fun _ _ => .ok (.obj [])) 20 (.string (ascii "\x7b\x7d"))
      (ascii "\x7b\x7d" ++ [0]) 2 rfl (by decide)).2 (.obj []) rfl (by decide)⟩

theorem nested_overflow (M : Nat) : ∀ (n : Nat) (st : List LuaValue),
    M < st.length + n + 6 → decode_one_L M (nested n) st = .error .stack_overflow_array := by
  intro n
  induction n with
  | zero =>
    intro st h
    have hc : luaL_checkstack M st 6 = false := by
      simp only [luaL_checkstack, decide_eq_false_iff_not]; omega
    simp [nested, decode_one_L, hc]
  | succ n ih =>
    intro st h
    by_cases hc : luaL_checkstack M st 6 = true
    · have h1 := ih (.table [] :: st) (by simp only [List.length_cons]; omega)
      simp [nested, decode_one_L, hc, decode_arr_L, h1]
    · simp [nested, decode_one_L, hc]

/-- C16, refuted at the document of 1000001 arrays nested in one another, decoded
on a Lua stack that may hold 1000000 slots: `luaL_checkstack` fails at a nested
array and `decode_one` raises the stack overflow error instead of pushing a
value. -/
theorem C16_stack_overflow_counterexample :
    decode_one_L 1000000 (nested 1000000) [LuaValue.string (ascii "[")] =
      .error .stack_overflow_array :=
  nested_overflow 1000000 1000000 [LuaValue.string (ascii "[")] (by
    simp only [List.length_singleton]; omega)

/-- C16, amended. On every document tree `decode_one` returns or raises: when the
Lua stack has room for the nesting of the tree it pushes exactly one value, the
decoding of the tree, and leaves the stack under it as it was, whatever the keys
and numbers in the tree; when the stack has no room for it, the call raises the
stack overflow error of `luaL_checkstack`, its one failure path. -/
theorem C16_decode_one_total (M : Nat) (v : yyjson_val) (st : List LuaValue) :
    (st.length + stackNeed v ≤ M → decode_one_L M v st = .ok (decode_one v :: st)) ∧
      (st.length ≤ M → M < st.length + stackNeed v →
        decode_one_L M v st = .error .stack_overflow_array ∨
          decode_one_L M v st = .error .stack_overflow_object) :=
  ⟨decode_one_L_ok M v st, decode_one_L_err M v st⟩

/-- C16 (amended) at an object with a key that is not an integer, a nested array and
a pair without key text: one value is pushed on a stack with room for 8 more
slots, and the error is raised with room for 7. -/
theorem C16_decode_one_total_witness :
    decode_one_L 9 (.obj [(ascii "1x", .arr [.null, .uint 7]), ([], .null)])
        [LuaValue.string (ascii "\x7b\x7d")] =
      .ok [decode_one (.obj [(ascii "1x", .arr [.null, .uint 7]), ([], .null)]),
        LuaValue.string (ascii "\x7b\x7d")] ∧
    (decode_one_L 8 (.obj [(ascii "1x", .arr [.null, .uint 7]), ([], .null)])
        [LuaValue.string (ascii "\x7b\x7d")] = .error .stack_overflow_array ∨
      decode_one_L 8 (.obj [(ascii "1x", .arr [.null, .uint 7]), ([], .null)])
        [LuaValue.string (ascii "\x7b\x7d")] = .error .stack_overflow_object) :=
  ⟨(C16_decode_one_total 9 (.obj [(ascii "1x", .arr [.null, .uint 7]), ([], .null)])
      [LuaValue.string (ascii "\x7b\x7d")]).1 (by decide),
    (C16_decode_one_total 8 (.obj [(ascii "1x", .arr [.null, .uint 7]), ([], .null)])
      [LuaValue.string (ascii "\x7b\x7d")]).2 (by decide) (by decide)⟩

/-- On buffers shorter than `2 ^ 31` bytes every success of the parser has the whole
length as offset. -/
theorem l_str2int_short_offset (s : List UInt8) (hlen : s.length < 2 ^ 31) (v : Int) (off : Nat)
    (h : l_str2int s = some (v, off)) : off = s.length := by
  have h1 := (l_str2int_some s v off h).1
  rw [castInt_of_lt _ hlen] at h1
  omega

theorem decode_one_key_one_then (n : Nat) (x : UInt8) (h : castInt (n + 1) = 1) (hn : n ≠ 0) :
    decode_one_key (49 :: List.replicate n x) = LuaKey.string (49 :: List.replicate n x) := by
  apply decode_one_key_string _ (by simp)
  rintro ⟨v, _, hv⟩
  rw [l_str2int_one_then n x h] at hv
  have hl : (49 :: List.replicate n x).length = n + 1 := by
    rw [List.length_cons, List.length_replicate]
  rw [hl] at hv
  injection hv with hv
  injection hv with _ hv
  omega

/-- C17, refuted. At the key `"+1"` the parser succeeds with the whole length as
offset and the key is not integer-typed: it is pushed as text. At the buffer of
4294967297 digits `'1'` the parser succeeds on the first digit alone and returns
the offset 1, a proper part of the input, and the key is pushed as text. -/
theorem C17_offset_counterexample :
    (l_str2int (ascii "+1") = some (1, (ascii "+1").length) ∧
      decode_one_key (ascii "+1") = LuaKey.string (ascii "+1")) ∧
    (l_str2int (49 :: List.replicate 4294967296 49) = some (1, 1) ∧
      (49 :: List.replicate 4294967296 (49 : UInt8)).length = 4294967297 ∧
      decode_one_key (49 :: List.replicate 4294967296 49) =
        LuaKey.string (49 :: List.replicate 4294967296 49)) :=
  ⟨⟨by decide, by decide⟩, l_str2int_one_then 4294967296 49 (by decide),
    by rw [List.length_cons, List.length_replicate],
    decode_one_key_one_then 4294967296 49 (by decide) (by norm_num)⟩

/-- C17, amended. On an input shorter than `2 ^ 31` bytes every success of
`l_str2int` returns the whole length as offset, never a proper part of it; so for
such a key whose first byte is `'-'` or a digit the comparison made by `decode_one`
holds on every successful parse, and the key is integer-typed with the value `v`
exactly when the parser succeeds on it with the value `v`. -/
theorem C17_offset_is_length (s : List UInt8) (hlen : s.length < 2 ^ 31) :
    (∀ v off, l_str2int s = some (v, off) → off = s.length) ∧
      (startsNumeric s → ∀ v,
        (decode_one_key s = LuaKey.integer v ↔ ∃ off, l_str2int s = some (v, off))) := by
  refine ⟨fun v off h => l_str2int_short_offset s hlen v off h, ?_⟩
  intro hst v
  have hne : s ≠ [] := by
    intro h0; subst h0
    obtain ⟨c, hc, _⟩ := hst
    simp at hc
  rw [decode_one_key_integer_iff s hne v]
  constructor
  · rintro ⟨_, h⟩; exact ⟨_, h⟩
  · rintro ⟨off, h⟩
    have := l_str2int_short_offset s hlen v off h
    subst this
    exact ⟨hst, h⟩

/-- C17 (amended) at the key `"-42"`. -/
theorem C17_offset_is_length_witness :
    (ascii "-42").length < 2 ^ 31 ∧ l_str2int (ascii "-42") = some (-42, 3) ∧
      decode_one_key (ascii "-42") = LuaKey.integer (-42) := by
  have h := C17_offset_is_length (ascii "-42") (by decide)
  exact ⟨by decide, by decide, (h.2 (by decide) (-42)).2 ⟨3, by decide⟩⟩

/-- C18. Whatever the input, after any number `k` of iterations of the loop of
`l_str2int` that passed the digit test and the overflow test, the accumulator is
the mathematical value of the `k` digits read so far, at most `2 ^ 63 - 1` when no
minus sign was seen and at most `2 ^ 63` when one was, so below `2 ^ 64`; a further
digit that passes the overflow test keeps `a * 10 + d` within the same bound, so
the reduction modulo `2 ^ 64` changes nothing there; and the final conversion gives
exactly the signed value of the digits read, a 64-bit signed integer. -/
theorem C18_accumulator_never_wraps (s : List UInt8) (k i a : Nat) (e : Bool)
    (hk : (isneg s 0).2 + k ≤ s.length)
    (h : l_str2int_loop s (isneg s 0).1 k (isneg s 0).2 0 true = some (i, a, e)) :
    a = decval ((s.drop (isneg s 0).2).take k) ∧
      a ≤ LUA_MAXINTEGER + (isneg s 0).1 ∧ a < 2 ^ 64 ∧
      ((isneg s 0).1 = 0 → a ≤ 2 ^ 63 - 1) ∧ ((isneg s 0).1 = 1 → a ≤ 2 ^ 63) ∧
      (∀ c : UInt8, lisdigit c = true →
        (decide (a ≥ MAXBY10) &&
          (decide (a > MAXBY10) || decide (c.toNat - 48 > MAXLASTD + (isneg s 0).1))) = false →
        a * 10 + (c.toNat - 48) ≤ LUA_MAXINTEGER + (isneg s 0).1 ∧
          (a * 10 + (c.toNat - 48)) % 2 ^ 64 = a * 10 + (c.toNat - 48)) ∧
      signedResult (isneg s 0).1 a = (if (isneg s 0).1 = 1 then -(a : Int) else (a : Int)) ∧
      -2 ^ 63 ≤ signedResult (isneg s 0).1 a ∧ signedResult (isneg s 0).1 a < 2 ^ 63 := by
  have hneg := isneg_fst_le s
  rw [loop_eq_scan s _ k _ 0 true hk] at h
  cases hsc : scan (isneg s 0).1 ((s.drop (isneg s 0).2).take k) 0 with
  | none => rw [hsc] at h; simp at h
  | some r =>
    rw [hsc] at h
    simp only [Option.map_some', Option.some.injEq, Prod.mk.injEq] at h
    obtain ⟨_, hr, _⟩ := h
    subst hr
    have hx := (scan_eq_some_iff _ hneg _ 0 r (Nat.zero_le _)).1 hsc
    simp only [Nat.zero_mul, Nat.zero_add] at hx
    obtain ⟨_, hb, hv⟩ := hx
    have hb2 : r ≤ LUA_MAXINTEGER + (isneg s 0).1 := by rw [hv]; exact hb
    have hM := LUA_MAXINTEGER_eq
    have h64 : (2 : Nat) ^ 64 = 18446744073709551616 := by norm_num
    have h63 : (2 : Nat) ^ 63 = 9223372036854775808 := by norm_num
    have h63i : (2 : Int) ^ 63 = 9223372036854775808 := by norm_num
    have hsr : signedResult (isneg s 0).1 r = (if (isneg s 0).1 = 1 then -(r : Int) else (r : Int)) := by
      have hcases : (isneg s 0).1 = 0 ∨ (isneg s 0).1 = 1 := by omega
      rcases hcases with h0 | h1
      · rw [h0] at hb2 ⊢
        rw [signedResult_zero r (by simpa using hb2)]
        simp
      · rw [h1] at hb2 ⊢
        rw [signedResult_one r hb2]
        simp
    refine ⟨hv, hb2, by omega, fun h0 => by omega, fun h1 => by omega, ?_, hsr, ?_, ?_⟩
    · intro c hc hpass
      have hd := (lisdigit_iff c).1 hc
      simp only [Bool.and_eq_false_iff, Bool.or_eq_false_iff, decide_eq_false_iff_not,
        MAXBY10_eq, MAXLASTD_eq] at hpass
      constructor
      · omega
      · apply Nat.mod_eq_of_lt; omega
    · rw [hsr]; split <;> omega
    · rw [hsr]; split <;> omega

/-- C18 at the input `"-9223372036854775808"` after all 19 digits: the accumulator
is `2 ^ 63`. -/
theorem C18_accumulator_never_wraps_witness :
    (isneg (ascii "-9223372036854775808") 0).2 + 19 ≤ (ascii "-9223372036854775808").length ∧
      l_str2int_loop (ascii "-9223372036854775808") (isneg (ascii "-9223372036854775808") 0).1
        19 (isneg (ascii "-9223372036854775808") 0).2 0 true =
          some (20, 9223372036854775808, false) ∧
      (9223372036854775808 : Nat) =
        decval (((ascii "-9223372036854775808").drop
          (isneg (ascii "-9223372036854775808") 0).2).take 19) ∧
      signedResult (isneg (ascii "-9223372036854775808") 0).1 9223372036854775808 =
        -9223372036854775808 := by
  have h := C18_accumulator_never_wraps (ascii "-9223372036854775808") 19 20
    9223372036854775808 false (by decide) (by decide)
  refine ⟨by decide, by decide, h.1, ?_⟩
  rw [h.2.2.2.2.2.2.1]
  decide

theorem decode_obj_append (a b : List (List UInt8 × yyjson_val)) :
    ∀ t : List (LuaKey × LuaValue), decode_obj (a ++ b) t = decode_obj b (decode_obj a t) := by
  induction a with
  | nil => intro t; simp [decode_obj_nil]
  | cons p r ih =>
    intro t
    obtain ⟨k, x⟩ := p
    by_cases hk : k = []
    · subst hk
      rw [List.cons_append, decode_obj_cons_empty, decode_obj_cons_empty, ih]
    · rw [List.cons_append, decode_obj_cons k x _ t hk, decode_obj_cons k x r t hk, ih]

/-- The pairs that do not decode to a key leave the entry of that key as it is. -/
theorem decode_obj_rawget_other (K : LuaKey) (kvs : List (List UInt8 × yyjson_val)) :
    ∀ t : List (LuaKey × LuaValue),
      (∀ p ∈ kvs, p.1 ≠ [] → decode_one_key p.1 ≠ K) →
        lua_rawget (decode_obj kvs t) K = lua_rawget t K := by
  induction kvs with
  | nil => intro t _; rw [decode_obj_nil]
  | cons p r ih =>
    intro t h
    obtain ⟨k, x⟩ := p
    have hr : ∀ p ∈ r, p.1 ≠ [] → decode_one_key p.1 ≠ K :=
      fun p hp => h p (List.mem_cons_of_mem _ hp)
    by_cases hk : k = []
    · subst hk
      rw [decode_obj_cons_empty, ih t hr]
    · rw [decode_obj_cons k x r t hk, ih _ hr, lua_rawget_rawset,
        if_neg (h (k, x) (List.mem_cons_self _ _) hk)]

theorem nodup_keys_rawset (t : List (LuaKey × LuaValue)) (k : LuaKey) (v : LuaValue)
    (h : (t.map Prod.fst).Nodup) : ((lua_rawset t k v).map Prod.fst).Nodup := by
  induction t with
  | nil => simp [lua_rawset]
  | cons e r ih =>
    rw [List.map_cons, List.nodup_cons] at h
    unfold lua_rawset
    by_cases he : e.1 = k
    · rw [if_pos he, List.map_cons, List.nodup_cons]
      rw [he] at h
      exact h
    · rw [if_neg he, List.map_cons, List.nodup_cons]
      refine ⟨?_, ih h.2⟩
      rw [mem_keys_rawset]
      rintro (h1 | h1)
      · exact he h1
      · exact h.1 h1

theorem nodup_keys_decode_obj (kvs : List (List UInt8 × yyjson_val)) :
    ∀ t : List (LuaKey × LuaValue), (t.map Prod.fst).Nodup →
      ((decode_obj kvs t).map Prod.fst).Nodup := by
  induction kvs with
  | nil => intro t h; rw [decode_obj_nil]; exact h
  | cons p r ih =>
    intro t h
    obtain ⟨k, x⟩ := p
    by_cases hk : k = []
    · subst hk
      rw [decode_obj_cons_empty]; exact ih t h
    · rw [decode_obj_cons k x r t hk]
      exact ih _ (nodup_keys_rawset t _ _ h)

/-- C19. In the table decoded from an object no key has two entries, and the entry
of a key carries the decoded value of the last pair with non-empty key text that
decodes to that key, whatever pairs decode to it before. So `{"1": "a", "01":
"b"}` decodes to the one entry of the integer 1 with the value `"b"`, and
`{"0": true, "-0": false}` to the one entry of the integer 0 with the value
`false`: fewer entries than pairs. -/
theorem C19_last_pair_wins (front back : List (List UInt8 × yyjson_val)) (k : List UInt8)
    (x : yyjson_val) (hk : k ≠ [])
    (hback : ∀ p ∈ back, p.1 ≠ [] → decode_one_key p.1 ≠ decode_one_key k) :
    decode_one (.obj (front ++ (k, x) :: back)) =
        .table (decode_obj (front ++ (k, x) :: back) []) ∧
      lua_rawget (decode_obj (front ++ (k, x) :: back) []) (decode_one_key k) =
        some (decode_one x) ∧
      ((decode_obj (front ++ (k, x) :: back) []).map Prod.fst).Nodup ∧
      decode_one (.obj [(ascii "1", .str (ascii "a")), (ascii "01", .str (ascii "b"))]) =
        .table [(LuaKey.integer 1, .string (ascii "b"))] ∧
      decode_one (.obj [(ascii "0", .bool true), (ascii "-0", .bool false)]) =
        .table [(LuaKey.integer 0, .boolean false)] := by
  refine ⟨decode_one_obj _, ?_, nodup_keys_decode_obj _ [] (by simp), by rfl, by rfl⟩
  rw [decode_obj_append, decode_obj_cons k x back _ hk,
    decode_obj_rawget_other _ back _ hback, lua_rawget_rawset, if_pos rfl]

/-- C19 at the object `{"1": "a", "01": "b"}`: the entry of the integer 1 carries
the value of the second pair. -/
theorem C19_last_pair_wins_witness :
    ascii "01" ≠ [] ∧
      lua_rawget (decode_obj ([(ascii "1", yyjson_val.str (ascii "a"))] ++
          (ascii "01", yyjson_val.str (ascii "b")) :: []) []) (decode_one_key (ascii "01")) =
        some (decode_one (yyjson_val.str (ascii "b"))) ∧
      decode_one_key (ascii "01") = LuaKey.integer 1 ∧
      decode_one_key (ascii "1") = LuaKey.integer 1 :=
  ⟨by decide,
    (C19_last_pair_wins [(ascii "1", yyjson_val.str (ascii "a"))] [] (ascii "01")
      (yyjson_val.str (ascii "b")) (by decide) (by simp)).2.1,
    by decide, by decide⟩

/-- C20. An input whose first byte is zero gives no result, whatever the Reader and
whatever the explicit length, in the pointer form and in the string form; and for
a pointer that is not null the call returns no result exactly when the first byte
is zero, whatever the length. -/
theorem C20_first_byte_decides (rd : List UInt8 → Nat → Except yyjson_read_err yyjson_val)
    (M : Nat) (mem s : List UInt8) (len : Int) (c : UInt8) :
    lua_json_decode rd M (.pointer (some (0 :: mem)) (some len)) = .returns0 ∧
      lua_json_decode rd M (.string (0 :: s)) = .returns0 ∧
      (lua_json_decode rd M (.pointer (some (c :: mem)) (some len)) = .returns0 ↔ c = 0) := by
  refine ⟨lua_json_decode_nul rd M _ (0 :: mem) _ rfl rfl,
    lua_json_decode_nul rd M _ (0 :: s ++ [0]) _ rfl rfl, ?_⟩
  constructor
  · intro h
    by_contra hc
    have hread := lua_json_decode_read rd M (.pointer (some (c :: mem)) (some len)) (c :: mem) _
      rfl (by simpa using hc)
    rw [hread] at h
    cases hr : rd (c :: mem) (len % 2 ^ 64).toNat with
    | error err => rw [hr] at h; cases h
    | ok r =>
      rw [hr] at h
      simp only [] at h
      cases hd : decode_one_L M r [(DecodeArgs.pointer (some (c :: mem)) (some len)).slot] with
      | error e => rw [hd] at h; cases h
      | ok st =>
        rw [hd] at h
        cases st with
        | nil => cases h
        | cons v rest => cases h
  · intro hc
    subst hc
    exact lua_json_decode_nul rd M _ (0 :: mem) _ rfl rfl

end MoonJson
